import Mathlib

/-!
# Verification of the CSP scheduling solver (`src/csp_solver.py`)

This file is a shallow embedding, in Lean 4, of the constraint-satisfaction
core of the scheduling repository: the `CSPVariable` / `CSPConstraint` /
`CSPSolver` classes and the `SchedulingCSP` problem builder of
`src/csp_solver.py`.  Python dictionaries (which preserve insertion order)
are embedded as association lists, Python exceptions as `Except PyErr`,
wall-clock timeout checks as a boolean oracle consumed once per recursive
entry, and the recursion / the AC-3 work-list loop are given explicit fuel
(Python itself enforces a recursion limit; all theorems quantify over fuel).

Every definition below mirrors a specific Python function, named after it.
-/

namespace CSPSched

/-- A CSP value: the `(resource_id, day, start_hour)` triples that
`SchedulingCSP.create_domain_for_task` produces.  Python ints are
embedded as `Int`. -/
abbrev Value := String × String × Int

/-- Python runtime errors that the embedded code can raise. -/
inductive PyErr where
  /-- Raised when a function is called with the wrong number of arguments
  (the fate of `no_overlap`, a 3-parameter function, when
  `CSPConstraint.check` calls it with the 2 assigned values). -/
  | typeError
  /-- Raised by the `no_overlap` body when its third positional argument is a
  tuple (tuples have no `.get`); reachable only for 3-variable constraints,
  which the repository never builds. -/
  | attributeError
  /-- Raised by `list.remove` when the element is absent. -/
  | valueError
  /-- Raised on a missing dictionary key. -/
  | keyError
  /-- Python's recursion-depth limit, modelled by the fuel given to
  `backtrackSearch`. -/
  | recursionError
  /-- Modelling artifact only: the AC-3 work-list loop of the source always
  terminates, but its embedding consumes fuel; theorems quantify over fuel,
  and concrete runs are given enough of it. -/
  | fuelExhausted
  deriving DecidableEq, Repr

/-- A task record; fields not read by the embedded operations
(`name`, `priority`, `preferred_resources`) are omitted. -/
structure Task where
  id : String
  duration : Int
  requiredSkills : List String
  dependencies : List String
  deriving DecidableEq, Repr

/-- A resource record; `availability` and `name` are not read by the
embedded operations and are omitted.  `max_hours_per_day` is kept because
the specification's domain-validity clause mentions it (the code never
reads it). -/
structure Resource where
  id : String
  skills : List String
  maxHoursPerDay : Int
  deriving DecidableEq, Repr

/-- The `time_slots` input structure.  `working_hours_per_day` is kept
because the specification mentions it (the code never reads it). -/
structure TimeSlots where
  days : List String
  hours : List Int
  workingHoursPerDay : Int
  deriving DecidableEq, Repr

/-! ## Association lists embedding Python dicts (insertion-ordered) -/

/-- `k in d` on a Python dict. -/
def containsKey (l : List (String × α)) (k : String) : Bool :=
  l.any (fun p => p.1 = k)

/-- `d[k]` on a Python dict, as an `Option` (first matching key). -/
def lookupA (l : List (String × α)) (k : String) : Option α :=
  (l.find? (fun p => p.1 = k)).map (·.2)

/-- `d[k] = v` on a Python dict: update in place if the key exists,
else append at the end (Python dicts preserve insertion order). -/
def insertA (l : List (String × α)) (k : String) (v : α) : List (String × α) :=
  if containsKey l k then l.map (fun p => if p.1 = k then (k, v) else p)
  else l ++ [(k, v)]

/-- `del d[k]` on a Python dict (removes the first matching entry). -/
def eraseA : List (String × α) → String → List (String × α)
  | [], _ => []
  | p :: ps, k => if p.1 = k then ps else p :: eraseA ps k

/-- `list.remove(x)`: drop the first occurrence, `ValueError` if absent. -/
def removeFirst : List Value → Value → Except PyErr (List Value)
  | [], _ => .error .valueError
  | v :: vs, x =>
      if v = x then .ok vs
      else
        match removeFirst vs x with
        | .error e => .error e
        | .ok r => .ok (v :: r)

/-! ## `CSPVariable` and `CSPConstraint` -/

/-- `CSPVariable`: its (mutable) domain and current assignment.  The
`name` is the key under which it is stored; the `constraints` list that
`CSPSolver.__init__` attaches is recovered by `varConstraints` below. -/
structure CSPVariable where
  domain : List Value
  assigned : Option Value
  deriving DecidableEq, Repr

/-- `CSPVariable.get_remaining_values`. -/
def getRemainingValues (v : CSPVariable) : List Value :=
  if v.assigned.isSome then [] else v.domain

/-- The constraint functions the repository ever constructs.  The single
kind is the `no_overlap` closure of
`SchedulingCSP.create_hard_constraints`; it is a 3-parameter Python
function `(task1_id, task2_id, assignment)`. -/
inductive ConstraintFunc where
  | noOverlap
  deriving DecidableEq, Repr

/-- `CSPConstraint`: the variable names it mentions and its function. -/
structure CSPConstraint where
  /-- The source field `variables`. -/
  vars : List String
  func : ConstraintFunc
  deriving DecidableEq, Repr

/-- Calling the `no_overlap` closure on the positional argument list that
`CSPConstraint.check` builds (`*values`).  `no_overlap` declares three
parameters, so any other arity raises `TypeError`.  With exactly three
arguments the body runs `if task1_id == task2_id: return True` and then
`assignment.get(task1_id)` — but `assignment` is then a `(resource, day,
hour)` tuple, which has no `.get`, so it raises `AttributeError`.  The
interval-overlap logic of the body is therefore unreachable through
`check`. -/
def pyNoOverlapCall : List Value → Except PyErr Bool
  | [a, b, _] => if a = b then .ok true else .error .attributeError
  | _ => .error .typeError

/-- `CSPConstraint.check`: trivially true unless all its variables are
assigned, in which case the constraint function is applied to the list of
assigned values.  Because the guard ensures every key is present, the
lookup default is never used. -/
def check (c : CSPConstraint) (assignment : List (String × Value)) : Except PyErr Bool :=
  if c.vars.all (fun v => containsKey assignment v) then
    match c.func with
    | .noOverlap => pyNoOverlapCall (c.vars.map (fun v => (lookupA assignment v).getD ("", "", 0)))
  else .ok true

/-- The `constraints` list that `CSPSolver.__init__` attaches to the
variable named `n`: each global constraint is appended once per occurrence
of `n` in its variable list, in global order. -/
def varConstraints (cs : List CSPConstraint) (n : String) : List CSPConstraint :=
  cs.flatMap (fun c => (c.vars.filter (fun v => v = n)).map (fun _ => c))

/-! ## `CSPSolver` state -/

/-- The mutable state of a `CSPSolver`: its variables dict, global
constraint list, partial `assignment` dict, the count of timeout checks
performed so far (standing in for wall-clock reads) and the backtrack
counter. -/
structure SolverState where
  /-- The source field `variables`. -/
  vars : List (String × CSPVariable)
  constraints : List CSPConstraint
  assignment : List (String × Value)
  ticks : Nat
  backtrackCount : Nat
  deriving DecidableEq, Repr

/-- The names of the solver's variables, in insertion order. -/
def varNames (st : SolverState) : List String := st.vars.map (·.1)

/-- `self.variables[n]`; callers in the source only look up existing
names, so the default is never hit in any reachable evaluation. -/
def lookupVar (st : SolverState) (n : String) : CSPVariable :=
  (lookupA st.vars n).getD ⟨[], none⟩

/-- `variable.assign(value)` on the first entry named `n`. -/
def setAssigned : List (String × CSPVariable) → String → Option Value → List (String × CSPVariable)
  | [], _, _ => []
  | p :: ps, n, a => if p.1 = n then (p.1, { p.2 with assigned := a }) :: ps
      else p :: setAssigned ps n a

/-- Making the assignment `var_name := value`: `variable.assign(value)`
followed by `self.assignment[var_name] = value`. -/
def assignVar (st : SolverState) (n : String) (v : Value) : SolverState :=
  { st with vars := setAssigned st.vars n (some v),
            assignment := insertA st.assignment n v }

/-- Backtracking over it: `variable.unassign()`, `del
self.assignment[var_name]`, `self.backtrack_count += 1`. -/
def unassignVar (st : SolverState) (n : String) : SolverState :=
  { st with vars := setAssigned st.vars n none,
            assignment := eraseA st.assignment n,
            backtrackCount := st.backtrackCount + 1 }

/-! ## Consistency check and heuristics -/

/-- The loop of `CSPSolver.is_consistent`: `for constraint in
self.constraints: if not constraint.check(temp): return False`, then
`return True`. -/
def checkAll : List CSPConstraint → List (String × Value) → Except PyErr Bool
  | [], _ => .ok true
  | c :: cs, a =>
      match check c a with
      | .error e => .error e
      | .ok b => if b then checkAll cs a else .ok false

/-- `CSPSolver.is_consistent(var_name, value)`. -/
def isConsistent (st : SolverState) (n : String) (v : Value) : Except PyErr Bool :=
  checkAll st.constraints (insertA st.assignment n v)

/-- The selection fold shared by `select_mrv_variable` (sentinel
`float('inf')`, strict `<`) and `select_degree_variable` (sentinel `-1`,
strict `>`): start from `unassigned[0]`, rescan the whole list, replace
the candidate when `prefer score best` holds.  `none` is the sentinel,
which every first score beats. -/
def pySelect (score : String → Nat) (prefer : Nat → Nat → Bool) (l : List String) : String :=
  (l.foldl (fun acc n =>
      match acc with
      | (none, _) => (some (score n), n)
      | (some m, s) => if prefer (score n) m then (some (score n), n) else (some m, s))
    ((none : Option Nat), l.headD "")).2

/-- `len(variable.get_remaining_values())` for the variable named `n`. -/
def remCount (vars : List (String × CSPVariable)) (n : String) : Nat :=
  (getRemainingValues ((lookupA vars n).getD ⟨[], none⟩)).length

/-- The degree count of `select_degree_variable` /
`select_combined_variable`: over the constraints attached to `n`, count
the occurrences of other variables that are in `unassigned`. -/
def degreeOf (cs : List CSPConstraint) (unassigned : List String) (n : String) : Nat :=
  ((varConstraints cs n).map
    (fun c => (c.vars.filter (fun o => o ≠ n && decide (o ∈ unassigned))).length)).sum

/-- `CSPSolver.select_mrv_variable`. -/
def selectMrvVariable (vars : List (String × CSPVariable)) (unassigned : List String) : String :=
  pySelect (remCount vars) (fun a b => a < b) unassigned

/-- `CSPSolver.select_degree_variable`. -/
def selectDegreeVariable (cs : List CSPConstraint) (unassigned : List String) : String :=
  pySelect (degreeOf cs unassigned) (fun a b => b < a) unassigned

/-- The first phase of `select_combined_variable`: the list `mrv_vars` of
variables tied at the minimum remaining-value count, in input order. -/
def mrvVarsOf (vars : List (String × CSPVariable)) (unassigned : List String) : List String :=
  (unassigned.foldl (fun acc n =>
      let rv := remCount vars n
      match acc with
      | (none, _) => (some rv, [n])
      | (some m, l) =>
          if rv < m then (some rv, [n])
          else if rv = m then (some m, l ++ [n]) else (some m, l))
    ((none : Option Nat), ([] : List String))).2

/-- `CSPSolver.select_combined_variable`: MRV set, then (if not a
singleton) the degree fold over `mrv_vars`, with membership still tested
against the full `unassigned` list. -/
def selectCombinedVariable (vars : List (String × CSPVariable)) (cs : List CSPConstraint)
    (unassigned : List String) : String :=
  let mrvVars := mrvVarsOf vars unassigned
  if mrvVars.length = 1 then mrvVars.headD ""
  else pySelect (degreeOf cs unassigned) (fun a b => b < a) mrvVars

/-- The three heuristic names `solve` accepts; any other string makes
`select_variable` fall back to `random.choice`, which is outside every
claim and not modelled. -/
inductive Heuristic where
  | mrv
  | degree
  | combined
  deriving DecidableEq, Repr

/-- `CSPSolver.select_variable`'s dispatch (its `None`-on-empty guard is
inlined at the call site in `backtrackSearch`). -/
def selectVariable (st : SolverState) (h : Heuristic) (unassigned : List String) : String :=
  match h with
  | .mrv => selectMrvVariable st.vars unassigned
  | .degree => selectDegreeVariable st.constraints unassigned
  | .combined => selectCombinedVariable st.vars st.constraints unassigned

/-! ## `CSPSolver.backtrack_search`

The timeout comparison `time.time() - self.start_time > timeout` is
embedded as a boolean oracle `clock : Nat → Bool` evaluated at the number
of checks performed so far (`st.ticks`); an arbitrary oracle covers every
possible wall-clock behaviour.  The Python recursion is given fuel; running
out of fuel is Python's `RecursionError`. -/

/-- The `for value in variable.get_remaining_values()` loop of
`backtrack_search`, parameterised by the recursive call `recur`.  On a
consistent value: assign, recurse, return any non-`None` result, otherwise
undo the binding and continue. -/
def tryValues (recur : SolverState → Except PyErr (Option (List (String × Value)) × SolverState))
    (n : String) : List Value → SolverState →
    Except PyErr (Option (List (String × Value)) × SolverState)
  | [], st => .ok (none, st)
  | v :: vs, st =>
      match isConsistent st n v with
      | .error e => .error e
      | .ok c =>
          if c then
            match recur (assignVar st n v) with
            | .error e => .error e
            | .ok (some sol, st₂) => .ok (some sol, st₂)
            | .ok (none, st₂) => tryValues recur n vs (unassignVar st₂ n)
          else tryValues recur n vs st

/-- Recording one timeout check (one wall-clock read). -/
def tick (st : SolverState) : SolverState := { st with ticks := st.ticks + 1 }

/-- `CSPSolver.backtrack_search`: timeout check, completeness check,
variable selection (`None` when no variable is unassigned), then the value
loop.  The timeout comparison consumes one entry of the clock oracle;
every later read of `self` is of the same state (`tick` only counts the
check). -/
def backtrackSearch (clock : Nat → Bool) (h : Heuristic) :
    Nat → SolverState → Except PyErr (Option (List (String × Value)) × SolverState)
  | 0, _ => .error .recursionError
  | fuel + 1, st =>
      if clock st.ticks then .ok (none, tick st)
      else if st.assignment.length = st.vars.length then .ok (some st.assignment, tick st)
      else
        match (st.vars.filter (fun p => p.2.assigned.isNone)).map (·.1) with
        | [] => .ok (none, tick st)
        | u :: us =>
            tryValues (backtrackSearch clock h fuel)
              (selectVariable st h (u :: us))
              (getRemainingValues (lookupVar st (selectVariable st h (u :: us))))
              (tick st)

/-! ## `CSPSolver.arc_consistency` -/

/-- An arc of the AC-3 work list: `(var1, var2, constraint)`. -/
abbrev Arc := String × String × CSPConstraint

/-- The support scan of `revise_domain`: `for value2 in
self.variables[var2].domain`, checking `constraint.check({var1: value1,
var2: value2})` and stopping at the first support. -/
def findSupport (c : CSPConstraint) (n1 : String) (v1 : Value) (n2 : String) :
    List Value → Except PyErr Bool
  | [] => .ok false
  | v2 :: rest =>
      match check c (insertA (insertA [] n1 v1) n2 v2) with
      | .error e => .error e
      | .ok b => if b then .ok true else findSupport c n1 v1 n2 rest

/-- Update the domain of the first entry named `n`. -/
def replaceDomain : List (String × CSPVariable) → String → List Value →
    List (String × CSPVariable)
  | [], _, _ => []
  | p :: ps, n, d => if p.1 = n then (p.1, { p.2 with domain := d }) :: ps
      else p :: replaceDomain ps n d

/-- `self.variables[var1].domain.remove(value1)`: remove the first
occurrence from the stored domain of the first entry named `var1`
(`ValueError` if absent, `KeyError` if there is no such variable). -/
def removeFromDomain (st : SolverState) (n : String) (v : Value) : Except PyErr SolverState :=
  match lookupA st.vars n with
  | none => .error .keyError
  | some cv =>
      match removeFirst cv.domain v with
      | .error e => .error e
      | .ok d => .ok { st with vars := replaceDomain st.vars n d }

/-- The `for value1 in domain1` loop of `revise_domain`, iterating over a
copy of the original domain while removals mutate the stored one.  The
inner support scan re-reads `self.variables[var2].domain` each iteration. -/
def reviseLoop (n1 n2 : String) (c : CSPConstraint) :
    List Value → Bool → SolverState → Except PyErr (Bool × SolverState)
  | [], revised, st => .ok (revised, st)
  | v1 :: rest, revised, st =>
      match findSupport c n1 v1 n2 (lookupVar st n2).domain with
      | .error e => .error e
      | .ok sup =>
          if sup then reviseLoop n1 n2 c rest revised st
          else
            match removeFromDomain st n1 v1 with
            | .error e => .error e
            | .ok st' => reviseLoop n1 n2 c rest true st'

/-- `CSPSolver.revise_domain(var1, var2, constraint)`. -/
def reviseDomain (st : SolverState) (n1 n2 : String) (c : CSPConstraint) :
    Except PyErr (Bool × SolverState) :=
  reviseLoop n1 n2 c (lookupVar st n1).domain false st

/-- The arcs re-enqueued after `var1`'s domain was revised: `(other_var,
var1, other_constraint)` for every constraint attached to `var1` and every
one of its variables other than `var1` and `var2`. -/
def requeueArcs (st : SolverState) (n1 n2 : String) : List Arc :=
  (varConstraints st.constraints n1).flatMap (fun oc =>
    (oc.vars.filter (fun ov => ov ≠ n1 && ov ≠ n2)).map (fun ov => (ov, n1, oc)))

/-- The `while queue:` loop of `arc_consistency` (fuelled; the source loop
terminates because every re-enqueue strictly shrinks a domain). -/
def acLoop : Nat → List Arc → SolverState → Except PyErr (Bool × SolverState)
  | 0, _, _ => .error .fuelExhausted
  | _ + 1, [], st => .ok (true, st)
  | fuel + 1, (n1, n2, c) :: rest, st =>
      match reviseDomain st n1 n2 c with
      | .error e => .error e
      | .ok (revised, st₁) =>
          if revised then
            if (lookupVar st₁ n1).domain.length = 0 then .ok (false, st₁)
            else acLoop fuel (rest ++ requeueArcs st₁ n1 n2) st₁
          else acLoop fuel rest st₁

/-- The initial AC-3 work list: `(var_name, other_var, constraint)` for
every variable, each constraint attached to it, and every other variable
of that constraint. -/
def initialQueue (st : SolverState) : List Arc :=
  st.vars.flatMap (fun p =>
    (varConstraints st.constraints p.1).flatMap (fun c =>
      (c.vars.filter (fun o => o ≠ p.1)).map (fun o => (p.1, o, c))))

/-- `CSPSolver.arc_consistency()`: returns `False` exactly when a revision
emptied some domain.  The domains are revised in the solver state itself
(the Python method mutates `self.variables[...].domain` in place). -/
def arcConsistency (fuel : Nat) (st : SolverState) : Except PyErr (Bool × SolverState) :=
  acLoop fuel (initialQueue st) st

/-! ## `CSPSolver.solve` -/

/-- `solve` resets `start_time` and `backtrack_count`. -/
def resetStats (st : SolverState) : SolverState :=
  { st with ticks := 0, backtrackCount := 0 }

/-- `CSPSolver.solve(heuristic, use_arc_consistency, timeout)`: optional
arc-consistency preprocessing (returning `None` on wipeout without running
the search), then backtracking search.  The same fuel bounds the AC work
list and the recursion depth. -/
def cspSolve (st : SolverState) (h : Heuristic) (useArcConsistency : Bool)
    (fuel : Nat) (clock : Nat → Bool) :
    Except PyErr (Option (List (String × Value)) × SolverState) :=
  if useArcConsistency then
    match arcConsistency fuel (resetStats st) with
    | .error e => .error e
    | .ok (b, st₁) => if b then backtrackSearch clock h fuel st₁ else .ok (none, st₁)
  else backtrackSearch clock h fuel (resetStats st)

/-! ## `SchedulingCSP` -/

/-- `SchedulingCSP.has_required_skills(resource, task)`:
`set(task.required_skills).issubset(set(resource.skills))`. -/
def hasRequiredSkills (r : Resource) (t : Task) : Bool :=
  t.requiredSkills.all (fun s => s ∈ r.skills)

/-- Python's `max` on a nonempty list (`create_domain_for_task` only
evaluates it with the `hours` list nonempty, since it appears inside
`for start_hour in hours`). -/
def listMax : List Int → Int
  | [] => 0
  | x :: xs => xs.foldl max x

/-- `SchedulingCSP.create_domain_for_task(task)`: for each resource with
the required skills, each day, and each start hour with `start_hour +
duration <= max(hours) + 1`, the candidate `(resource_id, day,
start_hour)`. -/
def createDomainForTask (resources : List Resource) (ts : TimeSlots) (t : Task) : List Value :=
  (resources.filter (fun r => hasRequiredSkills r t)).flatMap (fun r =>
    ts.days.flatMap (fun d =>
      (ts.hours.filter (fun h => h + t.duration ≤ listMax ts.hours + 1)).map
        (fun h => (r.id, d, h))))

/-- `SchedulingCSP.create_hard_constraints()`: one `no_overlap` constraint
`CSPConstraint([task1.id, task2.id], no_overlap)` for every index pair
`i < j` of the task list. -/
def createHardConstraints (tasks : List Task) : List CSPConstraint :=
  tasks.enum.flatMap (fun it =>
    tasks.enum.flatMap (fun jt =>
      if it.1 < jt.1 then [⟨[it.2.id, jt.2.id], .noOverlap⟩] else []))

/-- `SchedulingCSP.create_csp()` composed with `CSPSolver.__init__`: the
variables dict maps each task id to its generated domain (later duplicate
ids overwrite in place, as in a Python dict), the constraint list is the
hard-constraint list, and nothing is assigned. -/
def createCsp (tasks : List Task) (resources : List Resource) (ts : TimeSlots) : SolverState :=
  { vars := (tasks.foldl (fun acc t => insertA acc t.id (createDomainForTask resources ts t))
        []).map (fun p => (p.1, ⟨p.2, none⟩)),
    constraints := createHardConstraints tasks,
    assignment := [], ticks := 0, backtrackCount := 0 }

/-! ## Reference predicates taken from the specification's words

These definitions follow the specification text (not the source); they are
compared against the embedded source definitions in the theorems below. -/

/-- The specification's domain-membership condition for a candidate
`(resource_id, day, start_hour)`: some resource with that id has the
required skills, the day and hour are in the calendar, the task fits in
`working_hours_per_day`, and its duration respects the resource's
`max_hours_per_day`. -/
def domainCandidateSpec (resources : List Resource) (ts : TimeSlots) (t : Task)
    (v : Value) : Prop :=
  ∃ r ∈ resources, r.id = v.1 ∧ hasRequiredSkills r t ∧ v.2.1 ∈ ts.days ∧
    v.2.2 ∈ ts.hours ∧ v.2.2 + t.duration ≤ ts.workingHoursPerDay ∧
    t.duration ≤ r.maxHoursPerDay

/-- The specification's constraint-graph edge condition between two task
ids: a dependency in either direction, or a common resource able to
service both tasks. -/
def edgeSpec (tasks : List Task) (resources : List Resource) (a b : String) : Prop :=
  ∃ ta ∈ tasks, ∃ tb ∈ tasks, ta.id = a ∧ tb.id = b ∧
    (a ∈ tb.dependencies ∨ b ∈ ta.dependencies ∨
      ∃ r ∈ resources, hasRequiredSkills r ta ∧ hasRequiredSkills r tb)

/-- The hour-interval end point the specification derives for a solution
entry of task `tid`: its start hour plus the task's duration. -/
def taskDuration (tasks : List Task) (tid : String) : Int :=
  ((tasks.find? (fun t => t.id = tid)).map (·.duration)).getD 0

/-- The specification's no-overlap invariant on a raw solution mapping:
distinct task entries on the same resource and day have disjoint
half-open hour intervals `[start, start + duration)`. -/
def noOverlapSol (tasks : List Task) (m : List (String × Value)) : Prop :=
  ∀ e1 ∈ m, ∀ e2 ∈ m, e1.1 ≠ e2.1 → e1.2.1 = e2.2.1 → e1.2.2.1 = e2.2.2.1 →
    ¬(e1.2.2.2 < e2.2.2.2 + taskDuration tasks e2.1 ∧
      e2.2.2.2 < e1.2.2.2 + taskDuration tasks e1.1)

/-! ## C3: the generated domains -/

/-- A 2-hour task with no skill requirements. -/
def fixTaskPlain : Task := ⟨"T", 2, [], []⟩

/-- A resource with no skills and a `max_hours_per_day` of 1. -/
def fixResTight : Resource := ⟨"R", [], 1⟩

/-- A two-hour calendar whose `working_hours_per_day` is 2. -/
def fixTsTwo : TimeSlots := ⟨["monday"], [0, 1], 2⟩

/-- A 2-hour task requiring skill `x`. -/
def fixTask1 : Task := ⟨"T1", 2, ["x"], []⟩

/-- A 3-hour task requiring skill `x`. -/
def fixTask2 : Task := ⟨"T2", 3, ["x"], []⟩

/-- A 2-hour task requiring skill `z`, which no fixture resource has. -/
def fixTask3 : Task := ⟨"T3", 2, ["z"], []⟩

/-- A resource with skill `x` and 8 hours per day. -/
def fixRes1 : Resource := ⟨"R1", ["x"], 8⟩

/-- A one-day calendar with start hours 9..16. -/
def fixTs : TimeSlots := ⟨["monday"], [9, 10, 11, 12, 13, 14, 15, 16], 8⟩

/-- A clock oracle on which the timeout never expires. -/
def neverExpires : Nat → Bool := fun _ => false

/-- The ordered pairs `[x, y]` with `x` strictly before `y` in the input
list: the reference shape of the constraint structure the source builds. -/
def allPairs : List String → List (List String)
  | [] => []
  | x :: xs => xs.map (fun y => [x, y]) ++ allPairs xs

instance (tasks : List Task) (resources : List Resource) (a b : String) :
    Decidable (edgeSpec tasks resources a b) := by
  unfold edgeSpec; infer_instance

/-- The first element of `c :: xs` attaining the minimal score. -/
def firstMinOf (f : String → Nat) : String → List String → String
  | c, [] => c
  | c, x :: xs => if f c ≤ f (firstMinOf f x xs) then c else firstMinOf f x xs

/-- The first element of `c :: xs` attaining the maximal score. -/
def firstMaxOf (f : String → Nat) : String → List String → String
  | c, [] => c
  | c, x :: xs => if f (firstMaxOf f x xs) ≤ f c then c else firstMaxOf f x xs

/-- The minimum score over a nonempty list, as Python's running minimum. -/
def minScoreOf (f : String → Nat) (c : String) (xs : List String) : Nat :=
  xs.foldl (fun m x => min m (f x)) (f c)

/-- The specification's "MRV-minimal set": the tasks tied at the minimum
score, in input order. -/
def mrvTied (f : String → Nat) (a : String) (as : List String) : List String :=
  (a :: as).filter (fun n => f n = minScoreOf f a as)

/-- The recursion underlying `pySelect` once the sentinel has been
consumed: scan the rest of the list, replacing the candidate on a strict
improvement. -/
def sel2 (score : String → Nat) (prefer : Nat → Nat → Bool) : String → List String → String
  | c, [] => c
  | c, x :: xs => if prefer (score x) (score c) then sel2 score prefer x xs
      else sel2 score prefer c xs

/-- Relation between a variables dict before and after arc consistency:
same names in the same order, same assignments, and each stored domain a
sublist of what it was (values are only ever removed, in place). -/
def DomShrink (v v' : List (String × CSPVariable)) : Prop :=
  List.Forall₂ (fun p q => p.1 = q.1 ∧ q.2.assigned = p.2.assigned ∧
    q.2.domain.Sublist p.2.domain) v v'

/-! ## C1, C2, C10: the backtracking search

Well-formedness of a solver state: duplicate-free variable names,
duplicate-free assignment keys, the assignment dict and the variables'
`assigned` fields in sync, and every assignment key naming a variable.
`CSPSolver` states reachable from `create_csp` all satisfy it (Python
dict keys are unique by construction). -/
def WFl (vars : List (String × CSPVariable)) (asg : List (String × Value)) : Prop :=
  (vars.map (·.1)).Nodup ∧ (asg.map (·.1)).Nodup ∧
  (∀ p ∈ vars, containsKey asg p.1 = p.2.assigned.isSome) ∧
  (∀ q ∈ asg, containsKey vars q.1 = true)

/-- Well-formedness of a whole solver state. -/
def WF (st : SolverState) : Prop := WFl st.vars st.assignment

instance (vars : List (String × CSPVariable)) (asg : List (String × Value)) :
    Decidable (WFl vars asg) := by
  unfold WFl; infer_instance

instance (st : SolverState) : Decidable (WF st) := by
  unfold WF; infer_instance

/-- Pair coverage: the constraint list has a binary constraint between
every two distinct variable names.  `create_hard_constraints` guarantees
it. -/
def PairCovL (vars : List (String × CSPVariable)) (cs : List CSPConstraint) : Prop :=
  ∀ a b : String, a ∈ vars.map (·.1) → b ∈ vars.map (·.1) → a ≠ b →
    ∃ c ∈ cs, c.vars = [a, b] ∨ c.vars = [b, a]

/-- Membership in the generated domain of a task, characterised from the
source: the skills filter, the day/hour loops, and the
`start_hour + duration <= max(hours) + 1` test — with no reference to
`working_hours_per_day` or `max_hours_per_day`. -/
theorem mem_createDomainForTask (resources : List Resource) (ts : TimeSlots) (t : Task)
    (rid d : String) (h : Int) :
    (rid, d, h) ∈ createDomainForTask resources ts t ↔
      ∃ r ∈ resources, hasRequiredSkills r t ∧ r.id = rid ∧ d ∈ ts.days ∧
        h ∈ ts.hours ∧ h + t.duration ≤ listMax ts.hours + 1 := by
  simp only [createDomainForTask, List.mem_flatMap, List.mem_filter, List.mem_map,
    Prod.mk.injEq, decide_eq_true_eq]
  constructor
  · rintro ⟨r, ⟨hr, hsk⟩, d', hd', h', ⟨hh', hbound⟩, hrid, hd, hh⟩
    exact ⟨r, hr, hsk, hrid, hd ▸ hd', hh ▸ hh', hh ▸ hbound⟩
  · rintro ⟨r, hr, hsk, hrid, hd, hh, hbound⟩
    exact ⟨r, ⟨hr, hsk⟩, d, hd, h, ⟨hh, hbound⟩, hrid, rfl, rfl⟩

/-! ## Concrete fixtures used by counterexamples and witnesses -/

/-- **C3, counterexample.**  The claim states that the generated domain
contains a candidate *iff* the resource's skills match, the day and hour
are in the calendar, `start_hour + duration <= working_hours_per_day`,
and `duration <= resource.max_hours_per_day`.  On a task of duration 2
and a resource with `max_hours_per_day = 1`, the source generates the
candidate `("R", "monday", 0)` even though the specification's condition
fails (2 > 1): `create_domain_for_task` never consults
`max_hours_per_day` (nor `working_hours_per_day`; it tests
`start_hour + duration <= max(hours) + 1`). -/
theorem c3_counterexample :
    ("R", "monday", (0 : Int)) ∈ createDomainForTask [fixResTight] fixTsTwo fixTaskPlain ∧
      ¬ domainCandidateSpec [fixResTight] fixTsTwo fixTaskPlain ("R", "monday", (0 : Int)) := by
  constructor
  · decide
  · intro hspec
    rcases hspec with ⟨r, hr, -, -, -, -, -, hmax⟩
    simp only [List.mem_singleton] at hr
    subst hr
    exact absurd hmax (by decide)

/-- **C3, amended.**  A candidate `(resource_id, day, start_hour)` is in
the domain built for a task iff some listed resource with that id has all
the task's required skills, the day is in the calendar, the start hour is
one of the calendar's hour slots, and
`start_hour + duration <= max(hours) + 1`.  Neither
`working_hours_per_day` nor the resource's `max_hours_per_day` is
consulted (the original claim's two extra conditions are dropped, and its
bound `working_hours_per_day` is replaced by the code's
`max(hours) + 1`). -/
theorem c3_domain_membership_amended (resources : List Resource) (ts : TimeSlots)
    (t : Task) (rid d : String) (h : Int) :
    (rid, d, h) ∈ createDomainForTask resources ts t ↔
      ∃ r ∈ resources, hasRequiredSkills r t ∧ r.id = rid ∧ d ∈ ts.days ∧
        h ∈ ts.hours ∧ h + t.duration ≤ listMax ts.hours + 1 :=
  mem_createDomainForTask resources ts t rid d h

/-! ## C8: the constraint structure and degree counting -/

/-- The inner `for j, task2 in enumerate(tasks): if i < j` loop collects
exactly the tasks after position `i`. -/
theorem enumFrom_flatMap_lt (g : Task → α) (i : Nat) :
    ∀ (l : List Task) (k : Nat),
      (List.enumFrom k l).flatMap (fun jt => if i < jt.1 then [g jt.2] else []) =
        (l.drop (i + 1 - k)).map g := by
  intro l
  induction l with
  | nil => intro k; simp
  | cons t ts ih =>
      intro k
      rw [show List.enumFrom k (t :: ts) = (k, t) :: List.enumFrom (k + 1) ts from rfl,
        List.flatMap_cons, ih (k + 1)]
      by_cases hik : i < k
      · have h1 : i + 1 - k = 0 := by omega
        have h2 : i + 1 - (k + 1) = 0 := by omega
        simp [hik, h1, h2]
      · have h1 : i + 1 - k = (i + 1 - (k + 1)) + 1 := by omega
        simp [hik, h1]

/-- The outer loop of `create_hard_constraints`, with the inner loop
rewritten by `enumFrom_flatMap_lt`: the pair structure is `allPairs` of
the task ids. -/
theorem createHardConstraints_vars (tasks : List Task) :
    (createHardConstraints tasks).map (·.vars) = allPairs (tasks.map (·.id)) := by
  have main : ∀ (l : List Task) (k : Nat), tasks.drop k = l →
      ((List.enumFrom k l).flatMap (fun it =>
        tasks.enum.flatMap (fun jt =>
          if it.1 < jt.1 then [(⟨[it.2.id, jt.2.id], .noOverlap⟩ : CSPConstraint)] else []))).map
            (·.vars) =
        allPairs (l.map (·.id)) := by
    intro l
    induction l with
    | nil => intro k _; rfl
    | cons t ts ih =>
        intro k hk
        have hts : tasks.drop (k + 1) = ts := by
          rw [← List.tail_drop, hk]; rfl
        rw [show List.enumFrom k (t :: ts) = (k, t) :: List.enumFrom (k + 1) ts from rfl,
          List.flatMap_cons, List.map_append, ih (k + 1) hts]
        have hinner : tasks.enum.flatMap (fun jt =>
            if (k, t).1 < jt.1 then [(⟨[(k, t).2.id, jt.2.id], .noOverlap⟩ : CSPConstraint)]
            else []) =
            ts.map (fun t2 => (⟨[t.id, t2.id], .noOverlap⟩ : CSPConstraint)) := by
          rw [show tasks.enum = List.enumFrom 0 tasks from rfl,
            enumFrom_flatMap_lt (fun t2 => (⟨[t.id, t2.id], .noOverlap⟩ : CSPConstraint)) k tasks 0,
            Nat.sub_zero, hts]
        rw [hinner, List.map_map]
        show ts.map (fun t2 => [t.id, t2.id]) ++ _ = _
        rw [List.map_cons, allPairs, List.map_map]
        rfl
  exact main tasks 0 (List.drop_zero tasks)

/-- Every name in a pair produced by `allPairs` comes from the input
list. -/
theorem allPairs_mem_subset {ids : List String} {vl : List String}
    (h : vl ∈ allPairs ids) : ∀ x ∈ vl, x ∈ ids := by
  induction ids with
  | nil => cases h
  | cons a l ih =>
      rw [allPairs, List.mem_append] at h
      rcases h with h | h
      · rcases List.mem_map.1 h with ⟨y, hy, rfl⟩
        intro x hx
        rcases List.mem_cons.1 hx with h1 | hx
        · rw [h1]; exact List.mem_cons_self a l
        · rcases List.mem_cons.1 hx with h2 | hx
          · rw [h2]; exact List.mem_cons_of_mem a hy
          · cases hx
      · intro x hx
        exact List.mem_cons_of_mem a (ih h x hx)

/-- Summing a constant function over a list. -/
theorem sum_map_const (l : List α) (k : Nat) : (l.map (fun _ => k)).sum = l.length * k := by
  induction l with
  | nil => simp
  | cons a l ih => rw [List.map_cons, List.sum_cons, ih, List.length_cons, Nat.succ_mul]; omega

/-- Summing a function `g` over the per-occurrence flattening that
`varConstraints` produces. -/
theorem flatMap_occ_sum (cs : List CSPConstraint) (g : CSPConstraint → Nat) (n : String) :
    ((cs.flatMap (fun c => (c.vars.filter (fun v => v = n)).map (fun _ => c))).map g).sum =
      (cs.map (fun c => (c.vars.filter (fun v => v = n)).length * g c)).sum := by
  induction cs with
  | nil => rfl
  | cons c cs ih =>
      rw [List.flatMap_cons, List.map_append, List.sum_append, ih, List.map_cons,
        List.sum_cons, List.map_map]
      congr 1
      exact sum_map_const (c.vars.filter (fun v => v = n)) (g c)

/-- `degreeOf` as a plain sum over the global constraint list: each
constraint contributes once per occurrence of `n` among its variables,
each time counting its other variables that are listed as unassigned. -/
theorem degreeOf_eq_sum (cs : List CSPConstraint) (u : List String) (n : String) :
    degreeOf cs u n =
      (cs.map (fun c => (c.vars.filter (fun v => v = n)).length *
        (c.vars.filter (fun o => o ≠ n && decide (o ∈ u))).length)).sum :=
  flatMap_occ_sum cs (fun c => (c.vars.filter (fun o => o ≠ n && decide (o ∈ u))).length) n

/-- Indicator-sum helper: summing `if y = n then C else 0` over a
duplicate-free list containing `n` gives `C`. -/
theorem sum_indicator_single {n : String} (C : Nat) :
    ∀ (l : List String), l.Nodup → n ∈ l →
      (l.map (fun y => if y = n then C else 0)).sum = C := by
  intro l
  induction l with
  | nil => intro _ hn; cases hn
  | cons a l ih =>
      intro hnd hn
      rw [List.map_cons, List.sum_cons]
      by_cases han : a = n
      · subst han
        rw [if_pos rfl, List.sum_eq_zero, Nat.add_zero]
        intro x hx
        rcases List.mem_map.1 hx with ⟨y, hy, rfl⟩
        refine if_neg (fun h => (List.nodup_cons.1 hnd).1 ?_)
        rw [← h]; exact hy
      · rw [if_neg han,
          ih (List.nodup_cons.1 hnd).2
            ((List.mem_cons.1 hn).resolve_left (fun h => han h.symm)), Nat.zero_add]

/-- Counting helper: summing the indicator of a predicate over a list
counts its filter. -/
theorem sum_indicator_filter (l : List String) (p : String → Bool) :
    (l.map (fun y => if p y then 1 else 0)).sum = (l.filter p).length := by
  induction l with
  | nil => rfl
  | cons a l ih =>
      rw [List.map_cons, List.sum_cons, ih, List.filter_cons]
      by_cases h : p a
      · rw [if_pos h, if_pos h, List.length_cons]; omega
      · rw [if_neg h, if_neg h, Nat.zero_add]

/-- Contribution of a pair headed by the selected task `n` to its own
degree: one per partner currently unassigned. -/
theorem pair_contrib_head (n y : String) (u : List String) (hyn : y ≠ n) :
    (List.filter (fun v => v = n) [n, y]).length *
      (List.filter (fun o => o ≠ n && decide (o ∈ u)) [n, y]).length =
      if y ≠ n && decide (y ∈ u) then 1 else 0 := by
  by_cases hyu : y ∈ u <;> simp [List.filter_cons, hyn, hyu]

/-- Contribution of a pair headed by a different task `a` to the degree
of `n`: its partner must be `n`, and it counts iff `a` is unassigned. -/
theorem pair_contrib_tail (a y n : String) (u : List String) (han : a ≠ n) :
    (List.filter (fun v => v = n) [a, y]).length *
      (List.filter (fun o => o ≠ n && decide (o ∈ u)) [a, y]).length =
      if y = n then (if a ≠ n && decide (a ∈ u) then 1 else 0) else 0 := by
  by_cases hyn : y = n
  · subst hyn
    by_cases hau : a ∈ u <;> simp [List.filter_cons, han, hau]
  · simp [List.filter_cons, han, hyn]

/-- A pair not mentioning `n` contributes nothing. -/
theorem pair_contrib_zero {n : String} {u : List String} {vl : List String}
    (h : List.filter (fun v => v = n) vl = []) :
    (List.filter (fun v => v = n) vl).length *
      (List.filter (fun o => o ≠ n && decide (o ∈ u)) vl).length = 0 := by
  rw [h, List.length_nil, Nat.zero_mul]

/-- The degree the source computes over the `allPairs` structure: with
duplicate-free ids, the degree of task `n` is exactly the number of
*other* ids that appear in the unassigned list. -/
theorem sum_allPairs_degree (u : List String) :
    ∀ (ids : List String), ids.Nodup → ∀ n ∈ ids,
      ((allPairs ids).map (fun vl => (vl.filter (fun v => v = n)).length *
        (vl.filter (fun o => o ≠ n && decide (o ∈ u))).length)).sum =
      (ids.filter (fun o => o ≠ n && decide (o ∈ u))).length := by
  intro ids
  induction ids with
  | nil => intro _ n hn; cases hn
  | cons a l ih =>
      intro hnd n hn
      have hndl : l.Nodup := (List.nodup_cons.1 hnd).2
      have hal : a ∉ l := (List.nodup_cons.1 hnd).1
      rw [allPairs, List.map_append, List.sum_append, List.map_map]
      rcases List.mem_cons.1 hn with rfl | hnl
      · -- the selected task is the head: each head pair contributes its partner
        have h1 : (l.map ((fun vl => (vl.filter (fun v => v = n)).length *
            (vl.filter (fun o => o ≠ n && decide (o ∈ u))).length) ∘ fun y => [n, y])).sum
            = (l.filter (fun o => o ≠ n && decide (o ∈ u))).length := by
          rw [← sum_indicator_filter l (fun o => o ≠ n && decide (o ∈ u))]
          apply congrArg
          apply List.map_congr_left
          intro y hy
          exact pair_contrib_head n y u (fun h => hal (h ▸ hy))
        have h2 : ((allPairs l).map (fun vl => (vl.filter (fun v => v = n)).length *
            (vl.filter (fun o => o ≠ n && decide (o ∈ u))).length)).sum = 0 := by
          apply List.sum_eq_zero
          intro x hx
          rcases List.mem_map.1 hx with ⟨vl, hvl, rfl⟩
          refine pair_contrib_zero ?_
          rw [List.filter_eq_nil_iff]
          intro x hx
          simp only [decide_eq_true_eq]
          intro hxn
          exact hal (hxn ▸ allPairs_mem_subset hvl x hx)
        rw [h1, h2, Nat.add_zero]
        simp
      · -- the selected task is in the tail
        have han : a ≠ n := fun h => hal (h ▸ hnl)
        have h1 : (l.map ((fun vl => (vl.filter (fun v => v = n)).length *
            (vl.filter (fun o => o ≠ n && decide (o ∈ u))).length) ∘ fun y => [a, y])).sum
            = (if a ≠ n && decide (a ∈ u) then 1 else 0) := by
          rw [show (l.map ((fun vl => (vl.filter (fun v => v = n)).length *
              (vl.filter (fun o => o ≠ n && decide (o ∈ u))).length) ∘ fun y => [a, y]))
              = l.map (fun y => if y = n then (if a ≠ n && decide (a ∈ u) then 1 else 0) else 0)
            from ?_]
          · exact sum_indicator_single _ l hndl hnl
          · apply List.map_congr_left
            intro y _
            exact pair_contrib_tail a y n u han
        have h2 := ih hndl n hnl
        rw [h1, h2]
        simp only [List.filter_cons]
        by_cases hc : (a ≠ n && decide (a ∈ u)) = true
        · rw [if_pos hc, if_pos hc, List.length_cons]; omega
        · rw [if_neg hc, if_neg hc, Nat.zero_add]

/-- **C8, counterexample.**  Tasks `A` (skill `a`) and `B` (skill `b`)
have no dependency between them and no common capable resource (the only
resource has skill `a` only), so the claim says the constraint structure
has no edge between them; but `create_hard_constraints` creates the
`no_overlap` constraint `["A", "B"]` for every task pair. -/
theorem c8_counterexample :
    (∃ c ∈ createHardConstraints [⟨"A", 1, ["a"], []⟩, ⟨"B", 1, ["b"], []⟩],
        c.vars = ["A", "B"]) ∧
      ¬ edgeSpec [⟨"A", 1, ["a"], []⟩, ⟨"B", 1, ["b"], []⟩] [⟨"R", ["a"], 8⟩] "A" "B" := by
  constructor
  · exact ⟨⟨["A", "B"], .noOverlap⟩, by decide, rfl⟩
  · decide

/-- **C8, amended.**  The constraint structure used for degree
computation has one binary `no_overlap` constraint for *every* ordered
pair of task positions `i < j` — regardless of the tasks' dependency
lists and of shared capable resources (the claim's edge condition is
wrong) — and, as the claim correctly states for the second part, the
Degree computation counts for a task exactly its edges to *other*
currently-unassigned tasks: with duplicate-free ids, the degree of task
`n` is the number of other ids in the unassigned list. -/
theorem c8_constraint_structure_amended (tasks : List Task) (u : List String) (n : String)
    (hnd : (tasks.map (·.id)).Nodup) (hn : n ∈ tasks.map (·.id)) :
    (createHardConstraints tasks).map (·.vars) = allPairs (tasks.map (·.id)) ∧
      degreeOf (createHardConstraints tasks) u n =
        ((tasks.map (·.id)).filter (fun o => o ≠ n && decide (o ∈ u))).length := by
  refine ⟨createHardConstraints_vars tasks, ?_⟩
  rw [degreeOf_eq_sum]
  rw [show (fun (c : CSPConstraint) => (c.vars.filter (fun v => v = n)).length *
      (c.vars.filter (fun o => o ≠ n && decide (o ∈ u))).length)
    = ((fun vl => (vl.filter (fun v => v = n)).length *
        (vl.filter (fun o => o ≠ n && decide (o ∈ u))).length) ∘ (·.vars)) from rfl]
  rw [← List.map_map, createHardConstraints_vars tasks]
  exact sum_allPairs_degree u (tasks.map (·.id)) hnd n hn

/-- **C8, witness** for the amended theorem on a concrete 3-task fixture:
with tasks `A`, `B`, `C` and `B`, `C` unassigned, the degree of `A` is 2. -/
theorem c8_witness :
    ((([⟨"A", 1, ["a"], []⟩, ⟨"B", 1, ["b"], []⟩, ⟨"C", 1, [], []⟩] : List Task).map
        (·.id)).Nodup ∧ "A" ∈ ([⟨"A", 1, ["a"], []⟩, ⟨"B", 1, ["b"], []⟩,
        ⟨"C", 1, [], []⟩] : List Task).map (·.id)) ∧
      degreeOf (createHardConstraints [⟨"A", 1, ["a"], []⟩, ⟨"B", 1, ["b"], []⟩,
        ⟨"C", 1, [], []⟩]) ["B", "C"] "A" = 2 := by
  refine ⟨⟨by decide, by decide⟩, ?_⟩
  have h := (c8_constraint_structure_amended
    [⟨"A", 1, ["a"], []⟩, ⟨"B", 1, ["b"], []⟩, ⟨"C", 1, [], []⟩] ["B", "C"] "A"
    (by decide) (by decide)).2
  rw [h]
  decide


/-! ## C7 and C9: variable-ordering heuristics

Reference selection rules written from the specification's words.  Both
`firstMinOf` and `firstMaxOf` keep the *earlier* element on ties (the
head wins with `≤`), so they encode "ties broken by input order (first
occurrence)".  They are stated over a nonempty list split as
`head :: tail`. -/

/-- The `pySelect` fold with a live candidate equals `sel2`. -/
theorem foldl_sel2 (score : String → Nat) (prefer : Nat → Nat → Bool) :
    ∀ (xs : List String) (c : String),
      (xs.foldl (fun acc n =>
        match acc with
        | (none, _) => (some (score n), n)
        | (some m, s) => if prefer (score n) m then (some (score n), n) else (some m, s))
        ((some (score c) : Option Nat), c)).2 = sel2 score prefer c xs := by
  intro xs
  induction xs with
  | nil => intro c; rfl
  | cons x xs ih =>
      intro c
      rw [List.foldl_cons]
      show (List.foldl _
        (if prefer (score x) (score c) then ((some (score x) : Option Nat), x)
         else ((some (score c) : Option Nat), c)) xs).2 = sel2 score prefer c (x :: xs)
      by_cases h : prefer (score x) (score c)
      · rw [if_pos h, ih x, sel2, if_pos h]
      · rw [if_neg h, ih c, sel2, if_neg h]

/-- `pySelect` on a nonempty list: consume the sentinel, then `sel2`. -/
theorem pySelect_cons (score : String → Nat) (prefer : Nat → Nat → Bool)
    (a : String) (as : List String) :
    pySelect score prefer (a :: as) = sel2 score prefer a as := by
  unfold pySelect
  rw [List.foldl_cons]
  exact foldl_sel2 score prefer as a

/-- The value selected by `firstMinOf` has a minimal score. -/
theorem firstMinOf_min (f : String → Nat) :
    ∀ (xs : List String) (c : String), ∀ y ∈ c :: xs, f (firstMinOf f c xs) ≤ f y := by
  intro xs
  induction xs with
  | nil =>
      intro c y hy
      rcases List.mem_cons.1 hy with h | h
      · rw [h]; exact Nat.le_refl _
      · cases h
  | cons x t ih =>
      intro c y hy
      rw [firstMinOf]
      by_cases hc : f c ≤ f (firstMinOf f x t)
      · rw [if_pos hc]
        rcases List.mem_cons.1 hy with h | h
        · rw [h]
        · exact Nat.le_trans hc (ih x y h)
      · rw [if_neg hc]
        rcases List.mem_cons.1 hy with h | h
        · rw [h]; exact Nat.le_of_lt (Nat.lt_of_not_le hc)
        · exact ih x y h

/-- The value selected by `firstMaxOf` has a maximal score. -/
theorem firstMaxOf_max (f : String → Nat) :
    ∀ (xs : List String) (c : String), ∀ y ∈ c :: xs, f y ≤ f (firstMaxOf f c xs) := by
  intro xs
  induction xs with
  | nil =>
      intro c y hy
      rcases List.mem_cons.1 hy with h | h
      · rw [h]; exact Nat.le_refl _
      · cases h
  | cons x t ih =>
      intro c y hy
      rw [firstMaxOf]
      by_cases hc : f (firstMaxOf f x t) ≤ f c
      · rw [if_pos hc]
        rcases List.mem_cons.1 hy with h | h
        · rw [h]
        · exact Nat.le_trans (ih x y h) hc
      · rw [if_neg hc]
        rcases List.mem_cons.1 hy with h | h
        · rw [h]; exact Nat.le_of_lt (Nat.lt_of_not_le hc)
        · exact ih x y h

/-- `firstMinOf` selects an element of its input. -/
theorem firstMinOf_mem (f : String → Nat) :
    ∀ (xs : List String) (c : String), firstMinOf f c xs ∈ c :: xs := by
  intro xs
  induction xs with
  | nil => intro c; exact List.mem_cons_self c []
  | cons x t ih =>
      intro c
      rw [firstMinOf]
      by_cases hc : f c ≤ f (firstMinOf f x t)
      · rw [if_pos hc]; exact List.mem_cons_self c (x :: t)
      · rw [if_neg hc]; exact List.mem_cons_of_mem c (ih x)

/-- `firstMaxOf` selects an element of its input. -/
theorem firstMaxOf_mem (f : String → Nat) :
    ∀ (xs : List String) (c : String), firstMaxOf f c xs ∈ c :: xs := by
  intro xs
  induction xs with
  | nil => intro c; exact List.mem_cons_self c []
  | cons x t ih =>
      intro c
      rw [firstMaxOf]
      by_cases hc : f (firstMaxOf f x t) ≤ f c
      · rw [if_pos hc]; exact List.mem_cons_self c (x :: t)
      · rw [if_neg hc]; exact List.mem_cons_of_mem c (ih x)

/-- The strict-`<` scan of `select_mrv_variable` computes the first
minimal element. -/
theorem sel2_lt_eq_firstMinOf (score : String → Nat) :
    ∀ (xs : List String) (c : String),
      sel2 score (fun a b => a < b) c xs = firstMinOf score c xs := by
  intro xs
  induction xs with
  | nil => intro c; rfl
  | cons x xs ih =>
      intro c
      rw [sel2, firstMinOf]
      by_cases hlt : score x < score c
      · rw [if_pos (by simpa using hlt), ih x, if_neg]
        intro hc
        have := firstMinOf_min score xs x x (List.mem_cons_self x xs)
        omega
      · rw [if_neg (by simpa using hlt), ih c]
        have hcx : score c ≤ score x := Nat.le_of_not_lt hlt
        cases xs with
        | nil =>
            rw [show firstMinOf score x [] = x from rfl, if_pos hcx]
            rfl
        | cons y t =>
            rw [show firstMinOf score c (y :: t)
              = if score c ≤ score (firstMinOf score y t) then c else firstMinOf score y t
              from rfl]
            rw [show firstMinOf score x (y :: t)
              = if score x ≤ score (firstMinOf score y t) then x else firstMinOf score y t
              from rfl]
            by_cases hxm : score x ≤ score (firstMinOf score y t)
            · rw [if_pos hxm, if_pos (Nat.le_trans hcx hxm), if_pos hcx]
            · rw [if_neg hxm]

/-- The strict-`>` scan of `select_degree_variable` computes the first
maximal element. -/
theorem sel2_gt_eq_firstMaxOf (score : String → Nat) :
    ∀ (xs : List String) (c : String),
      sel2 score (fun a b => b < a) c xs = firstMaxOf score c xs := by
  intro xs
  induction xs with
  | nil => intro c; rfl
  | cons x xs ih =>
      intro c
      rw [sel2, firstMaxOf]
      by_cases hlt : score c < score x
      · rw [if_pos (by simpa using hlt), ih x, if_neg]
        intro hc
        have := firstMaxOf_max score xs x x (List.mem_cons_self x xs)
        omega
      · rw [if_neg (by simpa using hlt), ih c]
        have hxc : score x ≤ score c := Nat.le_of_not_lt hlt
        cases xs with
        | nil =>
            rw [show firstMaxOf score x [] = x from rfl, if_pos hxc]
            rfl
        | cons y t =>
            rw [show firstMaxOf score c (y :: t)
              = if score (firstMaxOf score y t) ≤ score c then c else firstMaxOf score y t
              from rfl]
            rw [show firstMaxOf score x (y :: t)
              = if score (firstMaxOf score y t) ≤ score x then x else firstMaxOf score y t
              from rfl]
            by_cases hxm : score (firstMaxOf score y t) ≤ score x
            · rw [if_pos hxm, if_pos (Nat.le_trans hxm hxc), if_pos hxc]
            · rw [if_neg hxm]


/-- Folding `min` only decreases the accumulator. -/
theorem foldl_min_le_init (f : String → Nat) :
    ∀ (xs : List String) (a : Nat), xs.foldl (fun m x => min m (f x)) a ≤ a := by
  intro xs
  induction xs with
  | nil => intro a; exact Nat.le_refl a
  | cons x xs ih =>
      intro a
      exact Nat.le_trans (ih (min a (f x))) (Nat.min_le_left a (f x))

/-- The `min` fold is bounded by every scanned element's score. -/
theorem foldl_min_le_mem (f : String → Nat) :
    ∀ (xs : List String) (a : Nat) (y : String), y ∈ xs →
      xs.foldl (fun m x => min m (f x)) a ≤ f y := by
  intro xs
  induction xs with
  | nil => intro a y hy; cases hy
  | cons x xs ih =>
      intro a y hy
      rcases List.mem_cons.1 hy with h | h
      · rw [h]
        exact Nat.le_trans (foldl_min_le_init f xs (min a (f x))) (Nat.min_le_right a (f x))
      · exact ih (min a (f x)) y h

/-- `minScoreOf` is a lower bound on every score of the nonempty list. -/
theorem minScoreOf_le (f : String → Nat) (c : String) (xs : List String) :
    ∀ y ∈ c :: xs, minScoreOf f c xs ≤ f y := by
  intro y hy
  rcases List.mem_cons.1 hy with h | h
  · rw [h]; exact foldl_min_le_init f xs (f c)
  · exact foldl_min_le_mem f xs (f c) y h

/-- The `min` fold yields either its initial value or some element's
score. -/
theorem foldl_min_attained (f : String → Nat) :
    ∀ (xs : List String) (a : Nat),
      xs.foldl (fun m x => min m (f x)) a = a ∨
        ∃ y ∈ xs, xs.foldl (fun m x => min m (f x)) a = f y := by
  intro xs
  induction xs with
  | nil => intro a; exact Or.inl rfl
  | cons x xs ih =>
      intro a
      rcases Nat.le_total a (f x) with hax | hax
      · rw [List.foldl_cons, Nat.min_eq_left hax]
        rcases ih a with h | ⟨y, hy, h⟩
        · exact Or.inl h
        · exact Or.inr ⟨y, List.mem_cons_of_mem x hy, h⟩
      · rw [List.foldl_cons, Nat.min_eq_right hax]
        rcases ih (f x) with h | ⟨y, hy, h⟩
        · exact Or.inr ⟨x, List.mem_cons_self x xs, h⟩
        · exact Or.inr ⟨y, List.mem_cons_of_mem x hy, h⟩

/-- The minimum score is attained by some element. -/
theorem minScoreOf_attained (f : String → Nat) (c : String) (xs : List String) :
    ∃ y ∈ c :: xs, f y = minScoreOf f c xs := by
  rcases foldl_min_attained f xs (f c) with h | ⟨y, hy, h⟩
  · exact ⟨c, List.mem_cons_self c xs, h.symm⟩
  · exact ⟨y, List.mem_cons_of_mem c hy, h.symm⟩

/-- The tied set is never empty. -/
theorem mrvTied_ne_nil (f : String → Nat) (a : String) (as : List String) :
    mrvTied f a as ≠ [] := by
  rcases minScoreOf_attained f a as with ⟨y, hy, he⟩
  exact List.ne_nil_of_mem (List.mem_filter.2 ⟨hy, by simp [he]⟩)

/-- Invariant of the `select_combined_variable` first fold: starting from
the minimum score and tied set of the processed nonempty prefix
`c :: ps`, folding over `xs` produces the tied set of `c :: (ps ++ xs)`. -/
theorem mrvVars_fold (f : String → Nat) :
    ∀ (xs ps : List String) (c : String),
      (xs.foldl (fun acc n =>
        let rv := f n
        match acc with
        | (none, _) => (some rv, [n])
        | (some m, l) =>
            if rv < m then (some rv, [n])
            else if rv = m then (some m, l ++ [n]) else (some m, l))
        ((some (minScoreOf f c ps) : Option Nat), mrvTied f c ps)).2
      = mrvTied f c (ps ++ xs) := by
  intro xs
  induction xs with
  | nil => intro ps c; rw [List.append_nil]; rfl
  | cons x xs ih =>
      intro ps c
      rw [List.foldl_cons]
      show (List.foldl _
        (if f x < minScoreOf f c ps then ((some (f x) : Option Nat), [x])
         else if f x = minScoreOf f c ps
           then ((some (minScoreOf f c ps) : Option Nat), mrvTied f c ps ++ [x])
           else ((some (minScoreOf f c ps) : Option Nat), mrvTied f c ps)) xs).2
        = mrvTied f c (ps ++ x :: xs)
      have happ : ps ++ x :: xs = (ps ++ [x]) ++ xs := by
        rw [List.append_assoc]; rfl
      have hminapp : minScoreOf f c (ps ++ [x]) = min (minScoreOf f c ps) (f x) := by
        unfold minScoreOf
        rw [List.foldl_append]
        rfl
      rcases Nat.lt_trichotomy (f x) (minScoreOf f c ps) with hlt | heq | hgt
      · rw [if_pos hlt]
        have hmin : minScoreOf f c (ps ++ [x]) = f x := by
          rw [hminapp]; exact Nat.min_eq_right (Nat.le_of_lt hlt)
        have htied : mrvTied f c (ps ++ [x]) = [x] := by
          unfold mrvTied
          rw [hmin, show c :: (ps ++ [x]) = (c :: ps) ++ [x] from rfl, List.filter_append]
          rw [List.filter_eq_nil_iff.2 ?_, List.nil_append]
          · rw [List.filter_cons]
            simp
          · intro y hy
            simp only [decide_eq_true_eq]
            intro hfy
            have := minScoreOf_le f c ps y hy
            omega
        rw [happ, ← ih (ps ++ [x]) c, hmin, htied]
      · rw [if_neg (by omega), if_pos heq]
        have hmin : minScoreOf f c (ps ++ [x]) = minScoreOf f c ps := by
          rw [hminapp, heq, Nat.min_self]
        have htied : mrvTied f c (ps ++ [x]) = mrvTied f c ps ++ [x] := by
          unfold mrvTied
          rw [hmin, show c :: (ps ++ [x]) = (c :: ps) ++ [x] from rfl, List.filter_append]
          congr 1
          rw [List.filter_cons]
          simp [heq]
        rw [happ, ← ih (ps ++ [x]) c, hmin, htied]
      · rw [if_neg (by omega), if_neg (by omega)]
        have hmin : minScoreOf f c (ps ++ [x]) = minScoreOf f c ps := by
          rw [hminapp]; exact Nat.min_eq_left (Nat.le_of_lt hgt)
        have htied : mrvTied f c (ps ++ [x]) = mrvTied f c ps := by
          unfold mrvTied
          rw [hmin, show c :: (ps ++ [x]) = (c :: ps) ++ [x] from rfl, List.filter_append]
          rw [show List.filter (fun n => f n = minScoreOf f c ps) [x] = [] from ?_,
            List.append_nil]
          rw [List.filter_cons]
          simp
          omega
        rw [happ, ← ih (ps ++ [x]) c, hmin, htied]

/-- The first phase of `select_combined_variable` computes exactly the
tied set of the specification. -/
theorem mrvVarsOf_eq (vars : List (String × CSPVariable)) (a : String) (as : List String) :
    mrvVarsOf vars (a :: as) = mrvTied (remCount vars) a as := by
  unfold mrvVarsOf
  rw [List.foldl_cons]
  show (List.foldl _ ((some (remCount vars a) : Option Nat), [a]) as).2 = _
  have h0 : ((some (remCount vars a) : Option Nat), ([a] : List String))
      = ((some (minScoreOf (remCount vars) a []) : Option Nat), mrvTied (remCount vars) a []) := by
    unfold mrvTied minScoreOf
    rw [List.filter_cons]
    simp
  rw [h0, mrvVars_fold (remCount vars) as [] a, List.nil_append]

/-- `select_mrv_variable` on a nonempty list returns the first task with
minimal remaining-values count. -/
theorem selectMrvVariable_eq (vars : List (String × CSPVariable)) (a : String)
    (as : List String) :
    selectMrvVariable vars (a :: as) = firstMinOf (remCount vars) a as := by
  unfold selectMrvVariable
  rw [pySelect_cons, sel2_lt_eq_firstMinOf]

/-- `select_degree_variable` on a nonempty list returns the first task
with maximal degree, degrees counted against the whole unassigned list. -/
theorem selectDegreeVariable_eq (cs : List CSPConstraint) (a : String) (as : List String) :
    selectDegreeVariable cs (a :: as) = firstMaxOf (degreeOf cs (a :: as)) a as := by
  unfold selectDegreeVariable
  rw [pySelect_cons, sel2_gt_eq_firstMaxOf]

/-- `select_combined_variable` on a nonempty list: the first task of the
tied set with maximal degree, degrees still counted against the whole
unassigned list.  (When the tied set is a singleton this collapses to its
sole element.) -/
theorem selectCombinedVariable_eq (vars : List (String × CSPVariable))
    (cs : List CSPConstraint) (a : String) (as : List String) :
    selectCombinedVariable vars cs (a :: as) =
      firstMaxOf (degreeOf cs (a :: as)) ((mrvTied (remCount vars) a as).headD "")
        ((mrvTied (remCount vars) a as).tail) := by
  unfold selectCombinedVariable
  rw [mrvVarsOf_eq]
  cases htied : mrvTied (remCount vars) a as with
  | nil => exact absurd htied (mrvTied_ne_nil (remCount vars) a as)
  | cons t0 trest =>
      cases trest with
      | nil => rfl
      | cons t1 ts =>
          rw [if_neg (by simp)]
          rw [pySelect_cons, sel2_gt_eq_firstMaxOf]
          rfl

/-- **C7.**  On a nonempty unassigned list, `select_combined_variable`
first computes the set of tasks tied at minimum domain size; if that set
is a singleton it returns its sole element — for *every* constraint list,
hence regardless of any degree values — and otherwise it returns the
Degree rule's choice restricted to the tied set (the first tied task of
maximal degree, degrees counted as edges to tasks of the unassigned
list, per the specification's Degree rule). -/
theorem c7_combined_tie_break (vars : List (String × CSPVariable))
    (cs : List CSPConstraint) (a : String) (as : List String) :
    (∀ y, mrvTied (remCount vars) a as = [y] →
      selectCombinedVariable vars cs (a :: as) = y) ∧
    (∀ t0 t1 ts, mrvTied (remCount vars) a as = t0 :: t1 :: ts →
      selectCombinedVariable vars cs (a :: as) =
        firstMaxOf (degreeOf cs (a :: as)) t0 (t1 :: ts)) := by
  constructor
  · intro y hy
    rw [selectCombinedVariable_eq, hy]
    rfl
  · intro t0 t1 ts ht
    rw [selectCombinedVariable_eq, ht]
    rfl

/-- **C7, witness**: tasks `A` (domain size 1) and `B` (domain size 2)
give the singleton tied set `["A"]`, and Combined returns `A`. -/
theorem c7_witness :
    mrvTied (remCount [("A", ⟨[("R", "monday", 9)], none⟩),
        ("B", ⟨[("R", "monday", 9), ("R", "monday", 10)], none⟩)]) "A" ["B"] = ["A"] ∧
      selectCombinedVariable [("A", ⟨[("R", "monday", 9)], none⟩),
        ("B", ⟨[("R", "monday", 9), ("R", "monday", 10)], none⟩)]
        [⟨["A", "B"], .noOverlap⟩] ["A", "B"] = "A" :=
  ⟨by decide,
    (c7_combined_tie_break _ [⟨["A", "B"], .noOverlap⟩] "A" ["B"]).1 "A" (by decide)⟩

/-- **C9.**  The three variable-ordering heuristics are pure functions of
`(variables, domains, constraints, unassigned list)` — so two calls on
identical inputs are definitionally equal — and each returns the *first*
element of the unassigned list attaining its optimum: MRV the first task
of minimal remaining-value count, Degree the first of maximal degree, and
Combined the first tied-at-minimum task of maximal degree (`firstMinOf` /
`firstMaxOf` keep the earlier element on ties, which is exactly
"ties broken by input order"). -/
theorem c9_heuristic_determinism (vars : List (String × CSPVariable))
    (cs : List CSPConstraint) (a : String) (as : List String) :
    selectMrvVariable vars (a :: as) = firstMinOf (remCount vars) a as ∧
    selectDegreeVariable cs (a :: as) = firstMaxOf (degreeOf cs (a :: as)) a as ∧
    selectCombinedVariable vars cs (a :: as) =
      firstMaxOf (degreeOf cs (a :: as)) ((mrvTied (remCount vars) a as).headD "")
        ((mrvTied (remCount vars) a as).tail) :=
  ⟨selectMrvVariable_eq vars a as, selectDegreeVariable_eq cs a as,
    selectCombinedVariable_eq vars cs a as⟩

/-! ## C5 and C6: arc consistency -/

/-- `DomShrink` is reflexive. -/
theorem DomShrink.refl (v : List (String × CSPVariable)) : DomShrink v v :=
  List.forall₂_same.2 (fun _ _ => ⟨rfl, rfl, List.Sublist.refl _⟩)

/-- `DomShrink` is transitive. -/
theorem DomShrink.trans :
    ∀ {v₁ v₂ v₃ : List (String × CSPVariable)},
      DomShrink v₁ v₂ → DomShrink v₂ v₃ → DomShrink v₁ v₃ := by
  intro v₁ v₂ v₃ h12 h23
  induction h12 generalizing v₃ with
  | nil => cases h23; exact List.Forall₂.nil
  | cons h12 _ ih =>
      cases h23 with
      | cons h23 t23 =>
          exact List.Forall₂.cons
            ⟨h12.1.trans h23.1, h23.2.1.trans h12.2.1, h23.2.2.trans h12.2.2⟩ (ih t23)

/-- `removeFirst` yields a sublist. -/
theorem removeFirst_sublist :
    ∀ {l : List Value} {v : Value} {r : List Value},
      removeFirst l v = .ok r → r.Sublist l := by
  intro l
  induction l with
  | nil => intro v r h; cases h
  | cons x xs ih =>
      intro v r h
      rw [removeFirst] at h
      by_cases hx : x = v
      · rw [if_pos hx] at h
        cases h
        exact List.sublist_cons_self x xs
      · rw [if_neg hx] at h
        cases hr : removeFirst xs v with
        | error e => rw [hr] at h; cases h
        | ok r' =>
            rw [hr] at h
            cases h
            exact List.Sublist.cons₂ x (ih hr)

/-- `replaceDomain` with a sublist of the stored domain shrinks the
dict. -/
theorem replaceDomain_shrink :
    ∀ (vars : List (String × CSPVariable)) (n : String) (d : List Value),
      (∀ cv, lookupA vars n = some cv → d.Sublist cv.domain) →
      DomShrink vars (replaceDomain vars n d) := by
  intro vars
  induction vars with
  | nil => intro n d _; exact List.Forall₂.nil
  | cons p ps ih =>
      intro n d hsub
      rw [replaceDomain]
      by_cases hp : p.1 = n
      · rw [if_pos hp]
        refine List.Forall₂.cons ⟨rfl, rfl, ?_⟩ (DomShrink.refl ps)
        refine hsub p.2 ?_
        unfold lookupA
        rw [List.find?_cons_of_pos _ (by simp [hp])]
        rfl
      · rw [if_neg hp]
        refine List.Forall₂.cons ⟨rfl, rfl, List.Sublist.refl _⟩ (ih n d ?_)
        intro cv hcv
        refine hsub cv ?_
        unfold lookupA at hcv ⊢
        rw [List.find?_cons_of_neg _ (by simp [hp])]
        exact hcv

/-- `removeFromDomain` leaves the assignment and constraints alone and
shrinks one stored domain. -/
theorem removeFromDomain_spec {st : SolverState} {n : String} {v : Value}
    {st' : SolverState} (h : removeFromDomain st n v = .ok st') :
    st'.assignment = st.assignment ∧ st'.constraints = st.constraints ∧
      DomShrink st.vars st'.vars := by
  rw [removeFromDomain] at h
  split at h
  · cases h
  · rename_i cv hl
    split at h
    · cases h
    · rename_i d hr
      cases h
      refine ⟨rfl, rfl, replaceDomain_shrink st.vars n d ?_⟩
      intro cv' hcv'
      rw [hl] at hcv'
      cases hcv'
      exact removeFirst_sublist hr

/-- The value loop of `revise_domain` leaves assignment and constraints
alone and only shrinks domains. -/
theorem reviseLoop_spec {n1 n2 : String} {c : CSPConstraint} :
    ∀ (values : List Value) (revised : Bool) (st : SolverState) {b : Bool}
      {st' : SolverState},
      reviseLoop n1 n2 c values revised st = .ok (b, st') →
      st'.assignment = st.assignment ∧ st'.constraints = st.constraints ∧
        DomShrink st.vars st'.vars := by
  intro values
  induction values with
  | nil =>
      intro revised st b st' h
      rw [reviseLoop] at h
      cases h
      exact ⟨rfl, rfl, DomShrink.refl _⟩
  | cons v vs ih =>
      intro revised st b st' h
      rw [reviseLoop] at h
      split at h
      · cases h
      · split at h
        · exact ih revised st h
        · split at h
          · cases h
          · rename_i st₁ hrm
            have h1 := removeFromDomain_spec hrm
            have h2 := ih true st₁ h
            exact ⟨h2.1.trans h1.1, h2.2.1.trans h1.2.1, h1.2.2.trans h2.2.2⟩

/-- The AC-3 work-list loop leaves assignment and constraints alone and
only shrinks domains. -/
theorem acLoop_spec :
    ∀ (fuel : Nat) (queue : List Arc) (st : SolverState) {b : Bool} {st' : SolverState},
      acLoop fuel queue st = .ok (b, st') →
      st'.assignment = st.assignment ∧ st'.constraints = st.constraints ∧
        DomShrink st.vars st'.vars := by
  intro fuel
  induction fuel with
  | zero => intro queue st b st' h; cases h
  | succ fuel ih =>
      intro queue st b st' h
      cases queue with
      | nil =>
          rw [acLoop] at h
          cases h
          exact ⟨rfl, rfl, DomShrink.refl _⟩
      | cons arc rest =>
          obtain ⟨n1, n2, c⟩ := arc
          rw [acLoop] at h
          split at h
          · cases h
          · rename_i revised st₁ hr
            have h1 := reviseLoop_spec (lookupVar st n1).domain false st hr
            split at h
            · split at h
              · cases h
                exact h1
              · have h2 := ih _ st₁ h
                exact ⟨h2.1.trans h1.1, h2.2.1.trans h1.2.1, h1.2.2.trans h2.2.2⟩
            · have h2 := ih rest st₁ h
              exact ⟨h2.1.trans h1.1, h2.2.1.trans h1.2.1, h1.2.2.trans h2.2.2⟩

/-- **C5, amended.**  `arc_consistency` is *not* a pure transform
returning new domains: it revises the solver's stored per-task domains in
place and returns only a success flag.  What does hold: it never touches
the assignment or the constraint list, it preserves the variables' names,
order and assigned values, and it only ever *removes* domain values (each
post-run stored domain is a sublist of the pre-run one). -/
theorem c5_arc_consistency_amended (fuel : Nat) (st : SolverState) (b : Bool)
    (st' : SolverState) (h : arcConsistency fuel st = .ok (b, st')) :
    st'.assignment = st.assignment ∧ st'.constraints = st.constraints ∧
      DomShrink st.vars st'.vars :=
  acLoop_spec fuel (initialQueue st) st h

/-- **C5, counterexample.**  The claim says arc-consistency is a
non-mutating transform that leaves the original per-task domains
unchanged.  On a two-task problem where `T3`'s domain is empty (no
resource has skill `z`), running `arc_consistency` empties the *stored*
domain of `T1` in place: before the run `T1` has candidates, afterwards
its stored domain is `[]`. -/
theorem c5_counterexample :
    ∃ st', arcConsistency 100 (resetStats (createCsp [fixTask1, fixTask3] [fixRes1] fixTs)) =
        .ok (false, st') ∧
      (lookupVar st' "T1").domain = [] ∧
      (lookupVar (resetStats (createCsp [fixTask1, fixTask3] [fixRes1] fixTs)) "T1").domain ≠
        [] :=
  ⟨_, rfl, by decide, by decide⟩

/-- **C5, witness** for the amended theorem, at the concrete wipeout
fixture. -/
theorem c5_witness :
    ∃ b st',
      arcConsistency 100 (resetStats (createCsp [fixTask1, fixTask3] [fixRes1] fixTs)) =
        .ok (b, st') ∧
      (st'.assignment = (resetStats (createCsp [fixTask1, fixTask3] [fixRes1] fixTs)).assignment ∧
        st'.constraints = (resetStats (createCsp [fixTask1, fixTask3] [fixRes1] fixTs)).constraints ∧
        DomShrink (resetStats (createCsp [fixTask1, fixTask3] [fixRes1] fixTs)).vars st'.vars) :=
  ⟨_, _, rfl,
    c5_arc_consistency_amended 100 (resetStats (createCsp [fixTask1, fixTask3] [fixRes1] fixTs))
      _ _ rfl⟩

/-- **C6.**  If arc-consistency preprocessing reports a domain wipeout
(`arc_consistency` returns `False`), then `solve` with arc consistency
enabled returns `None`, and it does so for *every* heuristic and every
clock behaviour — the backtracking search contributes nothing to the
result, i.e. it is never invoked. -/
theorem c6_wipeout_skips_search (st : SolverState) (fuel : Nat) (st' : SolverState)
    (hac : arcConsistency fuel (resetStats st) = .ok (false, st')) :
    ∀ (h : Heuristic) (clock : Nat → Bool),
      cspSolve st h true fuel clock = .ok (none, st') := by
  intro h clock
  show (match arcConsistency fuel (resetStats st) with
    | Except.error e => (Except.error e : Except PyErr (Option (List (String × Value)) × SolverState))
    | Except.ok (b, st₁) =>
        if b then backtrackSearch clock h fuel st₁ else Except.ok (none, st₁)) =
    Except.ok (none, st')
  rw [hac]
  rfl

/-- **C6, witness** at the concrete wipeout fixture. -/
theorem c6_witness :
    ∃ st',
      arcConsistency 100 (resetStats (createCsp [fixTask1, fixTask3] [fixRes1] fixTs)) =
        .ok (false, st') ∧
      cspSolve (createCsp [fixTask1, fixTask3] [fixRes1] fixTs) .mrv true 100 neverExpires =
        .ok (none, st') :=
  ⟨_, rfl,
    c6_wipeout_skips_search (createCsp [fixTask1, fixTask3] [fixRes1] fixTs) 100 _ rfl
      .mrv neverExpires⟩

/-- `containsKey` is membership of the key list. -/
theorem containsKey_iff {l : List (String × α)} {k : String} :
    containsKey l k = true ↔ k ∈ l.map (·.1) := by
  induction l with
  | nil => simp [containsKey]
  | cons p ps ih =>
      show (decide (p.1 = k) || containsKey ps k) = true ↔ _
      rw [List.map_cons, List.mem_cons, Bool.or_eq_true, decide_eq_true_eq, ih, eq_comm]

/-- `containsKey` only depends on the key list. -/
theorem containsKey_congr {l₁ l₂ : List (String × α)}
    (h : l₁.map (·.1) = l₂.map (·.1)) (k : String) :
    containsKey l₁ k = containsKey l₂ k := by
  have h1 : containsKey l₁ k = true ↔ containsKey l₂ k = true := by
    rw [containsKey_iff, containsKey_iff, h]
  cases hc : containsKey l₂ k with
  | false =>
      cases hc' : containsKey l₁ k with
      | false => rfl
      | true =>
          have := h1.1 hc'
          rw [hc] at this
          exact this.symm
  | true => exact h1.2 hc

/-- A successful lookup is a membership. -/
theorem lookupA_mem {l : List (String × α)} {k : String} {v : α}
    (h : lookupA l k = some v) : (k, v) ∈ l := by
  unfold lookupA at h
  cases hf : l.find? (fun p => p.1 = k) with
  | none => rw [hf] at h; cases h
  | some p =>
      rw [hf] at h
      cases h
      have h1 := List.mem_of_find?_eq_some hf
      have h2 := List.find?_some hf
      simp only [decide_eq_true_eq] at h2
      rw [show (k, p.2) = p from by rw [← h2]]
      exact h1

/-- Lookup succeeds exactly on present keys. -/
theorem lookupA_isSome {l : List (String × α)} {k : String} :
    (lookupA l k).isSome = containsKey l k := by
  induction l with
  | nil => rfl
  | cons p ps ih =>
      show (Option.map _ ((p :: ps).find? (fun q => q.1 = k))).isSome
        = (decide (p.1 = k) || containsKey ps k)
      by_cases hp : p.1 = k
      · rw [List.find?_cons_of_pos _ (by simpa using hp)]
        simp [hp]
      · rw [List.find?_cons_of_neg _ (by simpa using hp)]
        rw [show decide (p.1 = k) = false from by simp [hp], Bool.false_or]
        exact ih

/-- With duplicate-free keys, membership determines the lookup. -/
theorem lookupA_of_mem_nodup {l : List (String × α)} {k : String} {v : α}
    (hnd : (l.map (·.1)).Nodup) (hm : (k, v) ∈ l) : lookupA l k = some v := by
  induction l with
  | nil => cases hm
  | cons p ps ih =>
      rcases List.mem_cons.1 hm with h | h
      · rw [← h]
        unfold lookupA
        rw [List.find?_cons_of_pos _ (by simp)]
        rfl
      · have hnd' : (p.1 :: ps.map (·.1)).Nodup := hnd
        have hpk : p.1 ≠ k := by
          intro he
          refine (List.nodup_cons.1 hnd').1 ?_
          rw [he]
          exact List.mem_map.2 ⟨(k, v), h, rfl⟩
        unfold lookupA
        rw [List.find?_cons_of_neg _ (by simpa using hpk)]
        exact ih (List.nodup_cons.1 hnd').2 h

/-- Inserting a fresh key appends. -/
theorem insertA_of_fresh {l : List (String × α)} {k : String} (v : α)
    (h : containsKey l k = false) : insertA l k v = l ++ [(k, v)] := by
  unfold insertA
  rw [h]
  rfl

/-- Keys after an in-place update are unchanged. -/
theorem insertA_keys_of_contains {l : List (String × α)} {k : String} (v : α)
    (h : containsKey l k = true) : (insertA l k v).map (·.1) = l.map (·.1) := by
  unfold insertA
  rw [h, if_pos rfl, List.map_map]
  apply List.map_congr_left
  intro p _
  by_cases hp : p.1 = k
  · simp [hp]
  · simp [hp]

/-- Key membership after an insert. -/
theorem containsKey_insertA {l : List (String × α)} {k : String} (v : α) (k' : String) :
    containsKey (insertA l k v) k' = (containsKey l k' || decide (k' = k)) := by
  cases hc : containsKey l k with
  | false =>
      rw [insertA_of_fresh v hc]
      unfold containsKey
      rw [List.any_append]
      congr 1
      show (decide (k = k') || false) = decide (k' = k)
      rw [Bool.or_false, decide_eq_decide]
      exact eq_comm
  | true =>
      rw [containsKey_congr (insertA_keys_of_contains v hc) k']
      by_cases hk : k' = k
      · rw [hk, hc]
        simp
      · simp [hk]

/-- Deleting a freshly appended key restores the dict. -/
theorem eraseA_append_fresh {l : List (String × Value)} {k : String} (v : Value)
    (h : containsKey l k = false) : eraseA (l ++ [(k, v)]) k = l := by
  induction l with
  | nil => simp [eraseA]
  | cons p ps ih =>
      have hsplit : (decide (p.1 = k) || containsKey ps k) = false := h
      have hp : p.1 ≠ k := by
        intro he
        rw [he] at hsplit
        simp at hsplit
      rw [List.cons_append, eraseA, if_neg hp, ih (Bool.or_eq_false_iff.1 hsplit).2]

/-- `setAssigned` preserves the key list. -/
theorem setAssigned_keys (vs : List (String × CSPVariable)) (n : String) (a : Option Value) :
    (setAssigned vs n a).map (·.1) = vs.map (·.1) := by
  induction vs with
  | nil => rfl
  | cons p ps ih =>
      rw [setAssigned]
      by_cases hp : p.1 = n
      · rw [if_pos hp]
        rfl
      · rw [if_neg hp, List.map_cons, List.map_cons, ih]

/-- `setAssigned` preserves length. -/
theorem setAssigned_length (vs : List (String × CSPVariable)) (n : String) (a : Option Value) :
    (setAssigned vs n a).length = vs.length := by
  have := congrArg List.length (setAssigned_keys vs n a)
  simpa using this

/-- Looking up the updated key. -/
theorem lookupA_setAssigned_self (vs : List (String × CSPVariable)) (n : String)
    (a : Option Value) :
    lookupA (setAssigned vs n a) n =
      (lookupA vs n).map (fun cv => { cv with assigned := a }) := by
  induction vs with
  | nil => rfl
  | cons p ps ih =>
      rw [setAssigned]
      by_cases hp : p.1 = n
      · rw [if_pos hp]
        unfold lookupA
        rw [List.find?_cons_of_pos _ (by simpa using hp),
          List.find?_cons_of_pos _ (by simpa using hp)]
        rfl
      · rw [if_neg hp]
        unfold lookupA
        rw [List.find?_cons_of_neg _ (by simpa using hp),
          List.find?_cons_of_neg _ (by simpa using hp)]
        exact ih

/-- Looking up a different key after `setAssigned`. -/
theorem lookupA_setAssigned_other (vs : List (String × CSPVariable)) (n m : String)
    (a : Option Value) (h : m ≠ n) :
    lookupA (setAssigned vs n a) m = lookupA vs m := by
  induction vs with
  | nil => rfl
  | cons p ps ih =>
      rw [setAssigned]
      by_cases hp : p.1 = n
      · have hpm : ¬p.1 = m := by
          rw [hp]
          exact fun he => h he.symm
        rw [if_pos hp]
        unfold lookupA
        rw [List.find?_cons_of_neg _ (by simpa using hpm),
          List.find?_cons_of_neg _ (by simpa using hpm)]
      · rw [if_neg hp]
        unfold lookupA
        by_cases hm : p.1 = m
        · rw [List.find?_cons_of_pos _ (by simpa using hm),
            List.find?_cons_of_pos _ (by simpa using hm)]
        · rw [List.find?_cons_of_neg _ (by simpa using hm),
            List.find?_cons_of_neg _ (by simpa using hm)]
          exact ih

/-- Assigning and unassigning the same (previously unassigned) variable
restores the dict. -/
theorem setAssigned_cancel {vs : List (String × CSPVariable)} {n : String}
    {cv : CSPVariable} (v : Value) (hl : lookupA vs n = some cv)
    (ha : cv.assigned = none) :
    setAssigned (setAssigned vs n (some v)) n none = vs := by
  induction vs with
  | nil => cases hl
  | cons p ps ih =>
      obtain ⟨pn, pv⟩ := p
      obtain ⟨dom, asg⟩ := pv
      by_cases hp : pn = n
      · have hcv : (⟨dom, asg⟩ : CSPVariable) = cv := by
          unfold lookupA at hl
          rw [List.find?_cons_of_pos _ (by simpa using hp)] at hl
          exact Option.some.inj hl
        have hasg : asg = none := by
          rw [← hcv] at ha
          exact ha
        rw [setAssigned, if_pos hp, setAssigned, if_pos hp, hasg]
      · rw [setAssigned, if_neg hp, setAssigned, if_neg hp]
        unfold lookupA at hl
        rw [List.find?_cons_of_neg _ (by simpa using hp)] at hl
        rw [ih hl]

/-- Pointwise synchronisation: in a well-formed state, a key is in the
assignment dict exactly when the variable of that name is assigned. -/
theorem WFl.sync {vars : List (String × CSPVariable)} {asg : List (String × Value)}
    (h : WFl vars asg) (k : String) :
    containsKey asg k = ((lookupA vars k).map (fun cv => cv.assigned.isSome)).getD false := by
  cases hk : lookupA vars k with
  | some cv =>
      rw [h.2.2.1 (k, cv) (lookupA_mem hk)]
      rfl
  | none =>
      have hck : containsKey vars k = false := by
        rw [← lookupA_isSome, hk]
        rfl
      cases hc : containsKey asg k with
      | false => rfl
      | true =>
          rcases List.mem_map.1 ((containsKey_iff).1 hc) with ⟨q, hq, rfl⟩
          rw [h.2.2.2 q hq] at hck
          cases hck

/-- An unassigned variable's name is not an assignment key. -/
theorem WFl.not_in_asg {vars : List (String × CSPVariable)} {asg : List (String × Value)}
    {n : String} {cv : CSPVariable} (h : WFl vars asg) (hl : lookupA vars n = some cv)
    (ha : cv.assigned = none) : containsKey asg n = false := by
  rw [h.sync n, hl]
  simp [ha]

/-- Making a binding for an unassigned variable preserves
well-formedness. -/
theorem WFl.assign {vars : List (String × CSPVariable)} {asg : List (String × Value)}
    {n : String} {cv : CSPVariable} (h : WFl vars asg) (hl : lookupA vars n = some cv)
    (ha : cv.assigned = none) (v : Value) :
    WFl (setAssigned vars n (some v)) (insertA asg n v) := by
  have hfresh : containsKey asg n = false := h.not_in_asg hl ha
  have hins : insertA asg n v = asg ++ [(n, v)] := insertA_of_fresh v hfresh
  have hkeys : (setAssigned vars n (some v)).map (·.1) = vars.map (·.1) :=
    setAssigned_keys vars n (some v)
  have hnmem : n ∉ asg.map (·.1) := by
    intro hmem
    rw [(containsKey_iff).2 hmem] at hfresh
    cases hfresh
  refine ⟨by rw [hkeys]; exact h.1, ?_, ?_, ?_⟩
  · rw [hins, List.map_append]
    simp only [List.map_cons, List.map_nil]
    rw [List.nodup_append]
    exact ⟨h.2.1, List.nodup_singleton n, by simpa using hnmem⟩
  · intro p hp
    have hpk : p.1 ∈ vars.map (·.1) := by
      rw [← hkeys]
      exact List.mem_map.2 ⟨p, hp, rfl⟩
    have hcontains : containsKey (insertA asg n v) p.1 =
        (containsKey asg p.1 || decide (p.1 = n)) := containsKey_insertA v p.1
    by_cases hpn : p.1 = n
    · have hlv : lookupA (setAssigned vars n (some v)) n = some { cv with assigned := some v } := by
        rw [lookupA_setAssigned_self, hl]
        rfl
      have hpe : p = (n, p.2) := by rw [← hpn]
      have hp' : (n, p.2) ∈ setAssigned vars n (some v) := hpe ▸ hp
      have hp2 : p.2 = { cv with assigned := some v } := by
        have := lookupA_of_mem_nodup (by rw [hkeys]; exact h.1) hp'
        rw [hlv] at this
        exact Option.some.inj this.symm
      rw [hcontains, hp2, hpn]
      simp
    · have hlook : lookupA (setAssigned vars n (some v)) p.1 = lookupA vars p.1 :=
        lookupA_setAssigned_other vars n p.1 (some v) hpn
      have hmem : (p.1, p.2) ∈ vars := by
        have := lookupA_of_mem_nodup (by rw [hkeys]; exact h.1) hp
        rw [hlook] at this
        exact lookupA_mem this
      rw [hcontains, h.2.2.1 (p.1, p.2) hmem]
      simp [hpn]
  · intro q hq
    rw [hins] at hq
    rcases List.mem_append.1 hq with hq | hq
    · rw [containsKey_congr hkeys q.1]
      exact h.2.2.2 q hq
    · rcases List.mem_singleton.1 hq with rfl
      rw [containsKey_congr hkeys n, ← lookupA_isSome, hl]
      rfl

/-- A two-variable constraint whose variables are both assigned makes
`check` raise `TypeError` (the `no_overlap` arity bug). -/
theorem check_two_assigned_error {c : CSPConstraint} {asg : List (String × Value)}
    {a b : String} (hvars : c.vars = [a, b])
    (hca : containsKey asg a = true) (hcb : containsKey asg b = true) :
    check c asg = .error .typeError := by
  unfold check
  rw [if_pos ?hall]
  case hall =>
    rw [hvars]
    simp [List.all_cons, hca, hcb]
  cases c.func
  rw [hvars]
  rfl

/-- `checkAll` succeeding means every constraint's check succeeded. -/
theorem checkAll_ok_true_mem :
    ∀ {cs : List CSPConstraint} {asg : List (String × Value)},
      checkAll cs asg = .ok true → ∀ c ∈ cs, check c asg = .ok true := by
  intro cs
  induction cs with
  | nil => intro asg _ c hc; cases hc
  | cons c0 cs ih =>
      intro asg h c hc
      rw [checkAll] at h
      split at h
      · cases h
      · rename_i b hb
        split at h
        · rename_i hbt
          rcases List.mem_cons.1 hc with rfl | hc'
          · rw [hb, hbt]
          · exact ih h c hc'
        · cases h

/-- On a pair-covered, well-formed state, `is_consistent` can succeed
only when the partial assignment is empty: any existing binding would put
a fully-assigned two-variable `no_overlap` constraint in the way, which
raises `TypeError` rather than returning. -/
theorem isConsistent_ok_true_empty {st : SolverState} {n : String} {v : Value}
    (hWF : WFl st.vars st.assignment)
    (hPC : PairCovL st.vars st.constraints)
    (hn : n ∈ st.vars.map (·.1))
    (hfresh : containsKey st.assignment n = false)
    (hok : isConsistent st n v = .ok true) : st.assignment = [] := by
  cases hasg : st.assignment with
  | nil => rfl
  | cons q rest =>
      exfalso
      have hq : q ∈ st.assignment := by rw [hasg]; exact List.mem_cons_self q rest
      have hqv : q.1 ∈ st.vars.map (·.1) := (containsKey_iff).1 (hWF.2.2.2 q hq)
      have hqa : containsKey st.assignment q.1 = true := by
        rw [hasg]
        show (decide (q.1 = q.1) || _) = true
        simp
      have hqn : q.1 ≠ n := by
        intro he
        rw [he, hfresh] at hqa
        cases hqa
      rcases hPC q.1 n hqv hn hqn with ⟨c, hcmem, hcv⟩
      have htempq : containsKey (insertA st.assignment n v) q.1 = true := by
        rw [containsKey_insertA, hqa]
        rfl
      have htempn : containsKey (insertA st.assignment n v) n = true := by
        rw [containsKey_insertA]
        simp
      have hcheck := checkAll_ok_true_mem hok c hcmem
      rcases hcv with hcv | hcv
      · rw [check_two_assigned_error hcv htempq htempn] at hcheck
        cases hcheck
      · rw [check_two_assigned_error hcv htempn htempq] at hcheck
        cases hcheck

/-- Keys stay duplicate-free under the `create_csp` variables-dict fold. -/
theorem foldl_insertA_keys_nodup (f : Task → List Value) :
    ∀ (ts : List Task) (acc : List (String × List Value)),
      (acc.map (·.1)).Nodup →
      ((ts.foldl (fun a t => insertA a t.id (f t)) acc).map (·.1)).Nodup := by
  intro ts
  induction ts with
  | nil => intro acc h; exact h
  | cons t ts ih =>
      intro acc h
      rw [List.foldl_cons]
      refine ih (insertA acc t.id (f t)) ?_
      cases hc : containsKey acc t.id with
      | true => rw [insertA_keys_of_contains (f t) hc]; exact h
      | false =>
          rw [insertA_of_fresh (f t) hc, List.map_append]
          simp only [List.map_cons, List.map_nil]
          rw [List.nodup_append]
          refine ⟨h, List.nodup_singleton _, ?_⟩
          simp only [List.disjoint_singleton]
          intro hmem
          rw [(containsKey_iff).2 hmem] at hc
          cases hc

/-- Keys produced by the fold come from the accumulator or the task
ids. -/
theorem foldl_insertA_keys_mem (f : Task → List Value) :
    ∀ (ts : List Task) (acc : List (String × List Value)) (k : String),
      k ∈ (ts.foldl (fun a t => insertA a t.id (f t)) acc).map (·.1) →
      k ∈ acc.map (·.1) ∨ k ∈ ts.map (·.id) := by
  intro ts
  induction ts with
  | nil => intro acc k h; exact Or.inl h
  | cons t ts ih =>
      intro acc k h
      rw [List.foldl_cons] at h
      rcases ih (insertA acc t.id (f t)) k h with h' | h'
      · cases hc : containsKey acc t.id with
        | true =>
            rw [insertA_keys_of_contains (f t) hc] at h'
            exact Or.inl h'
        | false =>
            rw [insertA_of_fresh (f t) hc, List.map_append] at h'
            rcases List.mem_append.1 h' with h'' | h''
            · exact Or.inl h''
            · simp only [List.map_cons, List.map_nil, List.mem_singleton] at h''
              exact Or.inr (by rw [h'']; exact List.mem_map.2 ⟨t, List.mem_cons_self t ts, rfl⟩)
      · exact Or.inr (List.mem_map.2 (by
          rcases List.mem_map.1 h' with ⟨t', ht', rfl⟩
          exact ⟨t', List.mem_cons_of_mem t ht', rfl⟩))

/-- With duplicate-free task ids, the fold's keys are exactly the ids in
order. -/
theorem foldl_insertA_keys_eq (f : Task → List Value) :
    ∀ (ts : List Task) (acc : List (String × List Value)),
      (∀ t ∈ ts, containsKey acc t.id = false) → (ts.map (·.id)).Nodup →
      (ts.foldl (fun a t => insertA a t.id (f t)) acc).map (·.1) =
        acc.map (·.1) ++ ts.map (·.id) := by
  intro ts
  induction ts with
  | nil => intro acc _ _; simp
  | cons t ts ih =>
      intro acc hfresh hnd
      rw [List.foldl_cons,
        insertA_of_fresh (f t) (hfresh t (List.mem_cons_self t ts)),
        ih (acc ++ [(t.id, f t)]) ?_ ?_]
      · rw [List.map_append, List.append_assoc]
        rfl
      · intro t' ht'
        have h1 : containsKey acc t'.id = false := hfresh t' (List.mem_cons_of_mem t ht')
        have h2 : t'.id ≠ t.id := by
          intro he
          have hnd' : (t.id :: ts.map (·.id)).Nodup := hnd
          exact (List.nodup_cons.1 hnd').1 (he ▸ List.mem_map.2 ⟨t', ht', rfl⟩)
        rw [← insertA_of_fresh (f t) (hfresh t (List.mem_cons_self t ts)),
          containsKey_insertA, h1]
        simp [h2]
      · exact (List.nodup_cons.1 (show (t.id :: ts.map (·.id)).Nodup from hnd)).2

/-- The key list of the variables dict that `create_csp` builds. -/
theorem createCsp_keys (tasks : List Task) (resources : List Resource) (ts : TimeSlots) :
    (createCsp tasks resources ts).vars.map (·.1) =
      (tasks.foldl (fun a t => insertA a t.id (createDomainForTask resources ts t)) []).map
        (·.1) := by
  show ((tasks.foldl _ []).map
      (fun (p : String × List Value) => (p.1, (⟨p.2, none⟩ : CSPVariable)))).map (·.1) = _
  rw [List.map_map]
  rfl

/-- `create_csp` produces a well-formed solver state. -/
theorem createCsp_WF (tasks : List Task) (resources : List Resource) (ts : TimeSlots) :
    WF (createCsp tasks resources ts) := by
  refine ⟨?_, List.nodup_nil, ?_, ?_⟩
  · rw [createCsp_keys]
    exact foldl_insertA_keys_nodup _ tasks [] List.nodup_nil
  · intro p hp
    rcases List.mem_map.1 hp with ⟨q, _, rfl⟩
    rfl
  · intro q hq
    cases hq

/-- Every variable name of the created CSP is a task id. -/
theorem createCsp_keys_mem {tasks : List Task} {resources : List Resource} {ts : TimeSlots}
    {k : String} (h : k ∈ (createCsp tasks resources ts).vars.map (·.1)) :
    k ∈ tasks.map (·.id) := by
  rw [createCsp_keys] at h
  rcases foldl_insertA_keys_mem _ tasks [] k h with h' | h'
  · cases h'
  · exact h'

/-- With duplicate-free ids, the variable names are exactly the task ids
in input order. -/
theorem createCsp_keys_eq {tasks : List Task} (resources : List Resource) (ts : TimeSlots)
    (hnd : (tasks.map (·.id)).Nodup) :
    (createCsp tasks resources ts).vars.map (·.1) = tasks.map (·.id) := by
  rw [createCsp_keys, foldl_insertA_keys_eq _ tasks [] (fun t _ => rfl) hnd]
  rfl

/-- Two distinct members of a list appear as a pair (in one order or the
other) in `allPairs`. -/
theorem allPairs_pair_mem :
    ∀ (l : List String) (a b : String), a ∈ l → b ∈ l → a ≠ b →
      [a, b] ∈ allPairs l ∨ [b, a] ∈ allPairs l := by
  intro l
  induction l with
  | nil => intro a b ha _ _; cases ha
  | cons x xs ih =>
      intro a b ha hb hne
      rcases List.mem_cons.1 ha with rfl | ha'
      · have hb' : b ∈ xs := by
          rcases List.mem_cons.1 hb with h | h
          · exact absurd h.symm hne
          · exact h
        exact Or.inl (by
          rw [allPairs]
          exact List.mem_append.2 (Or.inl (List.mem_map.2 ⟨b, hb', rfl⟩)))
      · rcases List.mem_cons.1 hb with rfl | hb'
        · exact Or.inr (by
            rw [allPairs]
            exact List.mem_append.2 (Or.inl (List.mem_map.2 ⟨a, ha', rfl⟩)))
        · rcases ih a b ha' hb' hne with h | h
          · exact Or.inl (by rw [allPairs]; exact List.mem_append.2 (Or.inr h))
          · exact Or.inr (by rw [allPairs]; exact List.mem_append.2 (Or.inr h))

/-- The created CSP is pair-covered: every two distinct variable names
share a `no_overlap` constraint. -/
theorem createCsp_PairCov (tasks : List Task) (resources : List Resource) (ts : TimeSlots) :
    PairCovL (createCsp tasks resources ts).vars (createCsp tasks resources ts).constraints := by
  intro a b ha hb hne
  have ha' : a ∈ tasks.map (·.id) := createCsp_keys_mem ha
  have hb' : b ∈ tasks.map (·.id) := createCsp_keys_mem hb
  have hcs : (createCsp tasks resources ts).constraints = createHardConstraints tasks := rfl
  rcases allPairs_pair_mem (tasks.map (·.id)) a b ha' hb' hne with h | h
  · rw [← createHardConstraints_vars] at h
    rcases List.mem_map.1 h with ⟨c, hc, hcv⟩
    exact ⟨c, by rw [hcs]; exact hc, Or.inl hcv⟩
  · rw [← createHardConstraints_vars] at h
    rcases List.mem_map.1 h with ⟨c, hc, hcv⟩
    exact ⟨c, by rw [hcs]; exact hc, Or.inr hcv⟩

/-- Whatever the heuristic, the selected variable is in the unassigned
list. -/
theorem selectVariable_mem (st : SolverState) (h : Heuristic) (u : String)
    (us : List String) : selectVariable st h (u :: us) ∈ u :: us := by
  cases h with
  | mrv =>
      rw [selectVariable, selectMrvVariable_eq]
      exact firstMinOf_mem _ us u
  | degree =>
      rw [selectVariable, selectDegreeVariable_eq]
      exact firstMaxOf_mem _ us u
  | combined =>
      rw [selectVariable, selectCombinedVariable_eq]
      have h1 := firstMaxOf_mem (degreeOf st.constraints (u :: us))
        (mrvTied (remCount st.vars) u us).tail
        ((mrvTied (remCount st.vars) u us).headD "")
      have h2 : (mrvTied (remCount st.vars) u us).headD "" ::
          (mrvTied (remCount st.vars) u us).tail = mrvTied (remCount st.vars) u us := by
        cases htied : mrvTied (remCount st.vars) u us with
        | nil => exact absurd htied (mrvTied_ne_nil (remCount st.vars) u us)
        | cons a l => rfl
      rw [h2] at h1
      exact List.mem_of_mem_filter h1

/-- A name from the unassigned list looks up to an unassigned variable
(duplicate-free keys). -/
theorem unassigned_lookup {st : SolverState} {n : String}
    (hnd : (st.vars.map (·.1)).Nodup)
    (hmem : n ∈ (st.vars.filter (fun p => p.2.assigned.isNone)).map (·.1)) :
    ∃ cv, lookupA st.vars n = some cv ∧ cv.assigned = none := by
  rcases List.mem_map.1 hmem with ⟨p, hp, rfl⟩
  refine ⟨p.2, lookupA_of_mem_nodup hnd (List.mem_of_mem_filter hp), ?_⟩
  have := List.of_mem_filter hp
  exact Option.isNone_iff_eq_none.1 (by simpa using this)

/-- Frame property of the value loop: when it fails (`None`), the
variables dict and the assignment are exactly as at entry. -/
theorem tryValues_none_frame
    (recur : SolverState → Except PyErr (Option (List (String × Value)) × SolverState))
    (hrec : ∀ st st'', WFl st.vars st.assignment → recur st = .ok (none, st'') →
      st''.vars = st.vars ∧ st''.assignment = st.assignment ∧
        st''.constraints = st.constraints) :
    ∀ (vs : List Value) (st : SolverState) (n : String) (cv : CSPVariable)
      (st' : SolverState), WFl st.vars st.assignment →
      lookupA st.vars n = some cv → cv.assigned = none →
      tryValues recur n vs st = .ok (none, st') →
      st'.vars = st.vars ∧ st'.assignment = st.assignment ∧
        st'.constraints = st.constraints := by
  intro vs
  induction vs with
  | nil =>
      intro st n cv st' _ _ _ h
      rw [tryValues] at h
      cases h
      exact ⟨rfl, rfl, rfl⟩
  | cons v vs ih =>
      intro st n cv st' hWF hl ha h
      rw [tryValues] at h
      split at h
      · cases h
      · split at h
        · split at h
          · cases h
          · simp at h
          · rename_i st₂ hrec2
            have hWF1 : WFl (assignVar st n v).vars (assignVar st n v).assignment :=
              hWF.assign hl ha v
            have hfr := hrec _ _ hWF1 hrec2
            have hv3 : (unassignVar st₂ n).vars = st.vars := by
              show setAssigned st₂.vars n none = st.vars
              rw [hfr.1]
              exact setAssigned_cancel v hl ha
            have ha3 : (unassignVar st₂ n).assignment = st.assignment := by
              show eraseA st₂.assignment n = st.assignment
              rw [hfr.2.1]
              show eraseA (insertA st.assignment n v) n = st.assignment
              rw [insertA_of_fresh v (hWF.not_in_asg hl ha)]
              exact eraseA_append_fresh v (hWF.not_in_asg hl ha)
            have hc3 : (unassignVar st₂ n).constraints = st.constraints := hfr.2.2
            have hWF3 : WFl (unassignVar st₂ n).vars (unassignVar st₂ n).assignment := by
              rw [hv3, ha3]
              exact hWF
            have hl3 : lookupA (unassignVar st₂ n).vars n = some cv := by
              rw [hv3]
              exact hl
            have hres := ih (unassignVar st₂ n) n cv st' hWF3 hl3 ha h
            exact ⟨hres.1.trans hv3, hres.2.1.trans ha3, hres.2.2.trans hc3⟩
        · exact ih st n cv st' hWF hl ha h

/-- Frame property of the whole recursive search: every invocation that
returns `None` leaves the variables dict (hence every assigned/unassigned
status) and the partial-assignment dict exactly as at entry. -/
theorem backtrackSearch_none_frame (clock : Nat → Bool) (hr : Heuristic) :
    ∀ (fuel : Nat) (st st' : SolverState), WFl st.vars st.assignment →
      backtrackSearch clock hr fuel st = .ok (none, st') →
      st'.vars = st.vars ∧ st'.assignment = st.assignment ∧
        st'.constraints = st.constraints := by
  intro fuel
  induction fuel with
  | zero => intro st st' _ h; cases h
  | succ fuel ih =>
      intro st st' hWF h
      rw [backtrackSearch] at h
      split at h
      · cases h
        exact ⟨rfl, rfl, rfl⟩
      · split at h
        · simp at h
        · split at h
          · cases h
            exact ⟨rfl, rfl, rfl⟩
          · rename_i u us hmatch
            have hmem2 : selectVariable st hr (u :: us) ∈
                (st.vars.filter (fun p => p.2.assigned.isNone)).map (·.1) := by
              rw [hmatch]
              exact selectVariable_mem st hr u us
            obtain ⟨cv, hl, ha⟩ := unassigned_lookup hWF.1 hmem2
            exact tryValues_none_frame (backtrackSearch clock hr fuel)
              (fun s s'' hw hb => ih s s'' hw hb) _ (tick st) _ cv st' hWF hl ha h

/-- **C10.**  Backtracking failure is atomic: for every invocation of the
recursive backtracking step that returns `None` (exhaustion or timeout)
from a well-formed state, the partial-assignment dict and every
variable's assigned/unassigned status are exactly as they were at entry —
every binding made inside the call was undone before returning.  (Only
the timeout-check counter and the backtrack counter may differ.) -/
theorem c10_backtrack_failure_atomic (clock : Nat → Bool) (hr : Heuristic) (fuel : Nat)
    (st st' : SolverState) (hWF : WF st)
    (h : backtrackSearch clock hr fuel st = .ok (none, st')) :
    st'.vars = st.vars ∧ st'.assignment = st.assignment :=
  ⟨(backtrackSearch_none_frame clock hr fuel st st' hWF h).1,
    (backtrackSearch_none_frame clock hr fuel st st' hWF h).2.1⟩

/-- **C10, witness** on a concrete state whose search fails (task `T3`
has an empty domain). -/
theorem c10_witness :
    WF (createCsp [fixTask1, fixTask3] [fixRes1] fixTs) ∧
    ∃ st', backtrackSearch neverExpires .mrv 10 (createCsp [fixTask1, fixTask3] [fixRes1] fixTs)
        = .ok (none, st') ∧
      st'.vars = (createCsp [fixTask1, fixTask3] [fixRes1] fixTs).vars ∧
      st'.assignment = (createCsp [fixTask1, fixTask3] [fixRes1] fixTs).assignment :=
  ⟨by decide, _, rfl,
    c10_backtrack_failure_atomic neverExpires .mrv 10
      (createCsp [fixTask1, fixTask3] [fixRes1] fixTs) _ (by decide) rfl⟩

/-- Completeness of a successful value loop: a returned solution has
duplicate-free keys drawn from the variable names and exactly one entry
per variable. -/
theorem tryValues_some_complete
    (recur : SolverState → Except PyErr (Option (List (String × Value)) × SolverState))
    (hrecSome : ∀ st m st'', WFl st.vars st.assignment → recur st = .ok (some m, st'') →
      (m.map (·.1)).Nodup ∧ (∀ k ∈ m.map (·.1), k ∈ st.vars.map (·.1)) ∧
        m.length = st.vars.length)
    (hrecNone : ∀ st st'', WFl st.vars st.assignment → recur st = .ok (none, st'') →
      st''.vars = st.vars ∧ st''.assignment = st.assignment ∧
        st''.constraints = st.constraints) :
    ∀ (vs : List Value) (st : SolverState) (n : String) (cv : CSPVariable)
      (m : List (String × Value)) (st' : SolverState), WFl st.vars st.assignment →
      lookupA st.vars n = some cv → cv.assigned = none →
      tryValues recur n vs st = .ok (some m, st') →
      (m.map (·.1)).Nodup ∧ (∀ k ∈ m.map (·.1), k ∈ st.vars.map (·.1)) ∧
        m.length = st.vars.length := by
  intro vs
  induction vs with
  | nil =>
      intro st n cv m st' _ _ _ h
      rw [tryValues] at h
      simp at h
  | cons v vs ih =>
      intro st n cv m st' hWF hl ha h
      rw [tryValues] at h
      split at h
      · cases h
      · split at h
        · split at h
          · cases h
          · rename_i sol st₂ hrec2
            cases h
            have hWF1 : WFl (assignVar st n v).vars (assignVar st n v).assignment :=
              hWF.assign hl ha v
            have hres := hrecSome _ _ _ hWF1 hrec2
            have hkeys : (assignVar st n v).vars.map (·.1) = st.vars.map (·.1) :=
              setAssigned_keys st.vars n (some v)
            have hlen : (assignVar st n v).vars.length = st.vars.length :=
              setAssigned_length st.vars n (some v)
            exact ⟨hres.1, fun k hk => hkeys ▸ hres.2.1 k hk, hres.2.2.trans hlen⟩
          · rename_i st₂ hrec2
            have hWF1 : WFl (assignVar st n v).vars (assignVar st n v).assignment :=
              hWF.assign hl ha v
            have hfr := hrecNone _ _ hWF1 hrec2
            have hv3 : (unassignVar st₂ n).vars = st.vars := by
              show setAssigned st₂.vars n none = st.vars
              rw [hfr.1]
              exact setAssigned_cancel v hl ha
            have ha3 : (unassignVar st₂ n).assignment = st.assignment := by
              show eraseA st₂.assignment n = st.assignment
              rw [hfr.2.1]
              show eraseA (insertA st.assignment n v) n = st.assignment
              rw [insertA_of_fresh v (hWF.not_in_asg hl ha)]
              exact eraseA_append_fresh v (hWF.not_in_asg hl ha)
            have hWF3 : WFl (unassignVar st₂ n).vars (unassignVar st₂ n).assignment := by
              rw [hv3, ha3]
              exact hWF
            have hl3 : lookupA (unassignVar st₂ n).vars n = some cv := by
              rw [hv3]
              exact hl
            have hres := ih (unassignVar st₂ n) n cv m st' hWF3 hl3 ha h
            rw [hv3] at hres
            exact hres
        · exact ih st n cv m st' hWF hl ha h

/-- Completeness of a successful search: a returned solution has
duplicate-free keys drawn from the variable names and exactly one entry
per variable. -/
theorem backtrackSearch_some_complete (clock : Nat → Bool) (hr : Heuristic) :
    ∀ (fuel : Nat) (st : SolverState) (m : List (String × Value)) (st' : SolverState),
      WFl st.vars st.assignment →
      backtrackSearch clock hr fuel st = .ok (some m, st') →
      (m.map (·.1)).Nodup ∧ (∀ k ∈ m.map (·.1), k ∈ st.vars.map (·.1)) ∧
        m.length = st.vars.length := by
  intro fuel
  induction fuel with
  | zero => intro st m st' _ h; cases h
  | succ fuel ih =>
      intro st m st' hWF h
      rw [backtrackSearch] at h
      split at h
      · simp at h
      · split at h
        · rename_i hcomplete
          have hm : m = st.assignment := by
            cases h
            rfl
          subst hm
          refine ⟨hWF.2.1, ?_, by rw [hcomplete]⟩
          intro k hk
          rcases List.mem_map.1 hk with ⟨q, hq, rfl⟩
          exact (containsKey_iff).1 (hWF.2.2.2 q hq)
        · split at h
          · simp at h
          · rename_i u us hmatch
            have hmem2 : selectVariable st hr (u :: us) ∈
                (st.vars.filter (fun p => p.2.assigned.isNone)).map (·.1) := by
              rw [hmatch]
              exact selectVariable_mem st hr u us
            obtain ⟨cv, hl, ha⟩ := unassigned_lookup hWF.1 hmem2
            exact tryValues_some_complete (backtrackSearch clock hr fuel)
              (fun s mm s'' hw hb => ih s mm s'' hw hb)
              (backtrackSearch_none_frame clock hr fuel)
              _ (tick st) _ cv m st' hWF hl ha h

/-- Arc consistency preserves the variable names' list. -/
theorem DomShrink.keys {v v' : List (String × CSPVariable)} (h : DomShrink v v') :
    v'.map (·.1) = v.map (·.1) := by
  induction h with
  | nil => rfl
  | cons hrel _ ih => rw [List.map_cons, List.map_cons, ih, hrel.1]

/-- Arc consistency preserves well-formedness. -/
theorem WFl.domShrink {v v' : List (String × CSPVariable)} {asg : List (String × Value)}
    (h : WFl v asg) (hd : DomShrink v v') : WFl v' asg := by
  refine ⟨by rw [hd.keys]; exact h.1, h.2.1, ?_, ?_⟩
  · have hsync := h.2.2.1
    clear h
    induction hd with
    | nil => intro q hq; cases hq
    | cons hrel htail ih =>
        rename_i p q ps qs
        intro q' hq'
        rcases List.mem_cons.1 hq' with rfl | hq'
        · rw [← hrel.1, hrel.2.1]
          exact hsync p (List.mem_cons_self p ps)
        · exact ih (fun x hx => hsync x (List.mem_cons_of_mem p hx)) q' hq'
  · intro q hq
    rw [containsKey_congr hd.keys q.1]
    exact h.2.2.2 q hq

/-- Assembling a permutation of the task ids from key facts. -/
theorem solKeys_perm {m : List (String × Value)} {ids : List String}
    (hnodup : (m.map (·.1)).Nodup) (hsub : ∀ k ∈ m.map (·.1), k ∈ ids)
    (hlen : m.length = ids.length) : (m.map (·.1)).Perm ids := by
  refine (List.subperm_of_subset hnodup (fun k hk => hsub k hk)).perm_of_length_le ?_
  rw [List.length_map, hlen]

/-- **C1.**  For every scheduling problem (with unique task ids) and
every heuristic, `solve` returns either a mapping whose keys are exactly
the task ids — one entry per input task — or `None`; it never returns a
mapping covering only a strict subset of the tasks.  The statement
quantifies over the timeout oracle and the arc-consistency toggle, so it
covers timeout expiry and arc-consistency runs as well; a Python-level
exception (`Except.error`) is not a return. -/
theorem c1_solve_complete_or_none (tasks : List Task) (resources : List Resource)
    (tsl : TimeSlots) (hr : Heuristic) (ac : Bool) (fuel : Nat) (clock : Nat → Bool)
    (r : Option (List (String × Value))) (st' : SolverState)
    (hnd : (tasks.map (·.id)).Nodup)
    (hs : cspSolve (createCsp tasks resources tsl) hr ac fuel clock = .ok (r, st')) :
    r = none ∨ ∃ m, r = some m ∧ (m.map (·.1)).Perm (tasks.map (·.id)) := by
  cases r with
  | none => exact Or.inl rfl
  | some m =>
      refine Or.inr ⟨m, rfl, ?_⟩
      have hWF0 : WFl (resetStats (createCsp tasks resources tsl)).vars
          (resetStats (createCsp tasks resources tsl)).assignment :=
        createCsp_WF tasks resources tsl
      have hkeys0 : (resetStats (createCsp tasks resources tsl)).vars.map (·.1) =
          tasks.map (·.id) := createCsp_keys_eq resources tsl hnd
      rw [cspSolve] at hs
      split at hs
      · split at hs
        · cases hs
        · rename_i b st₁ hac
          have hspec := acLoop_spec fuel _ _ hac
          have hWF1 : WFl st₁.vars st₁.assignment := by
            rw [hspec.1]
            exact hWF0.domShrink hspec.2.2
          have hkeys1 : st₁.vars.map (·.1) = tasks.map (·.id) := by
            rw [hspec.2.2.keys]
            exact hkeys0
          split at hs
          · have hres := backtrackSearch_some_complete clock hr fuel st₁ m st' hWF1 hs
            refine solKeys_perm hres.1 (fun k hk => hkeys1 ▸ hres.2.1 k hk) ?_
            rw [hres.2.2, ← List.length_map st₁.vars (·.1), hkeys1, List.length_map]
          · simp at hs
      · have hres := backtrackSearch_some_complete clock hr fuel _ m st' hWF0 hs
        refine solKeys_perm hres.1 (fun k hk => hkeys0 ▸ hres.2.1 k hk) ?_
        rw [hres.2.2, ← List.length_map _ (·.1), hkeys0, List.length_map]

/-- **C1, witness** on the concrete one-task problem of the
specification's scenario. -/
theorem c1_witness :
    (([fixTask1].map (·.id)).Nodup) ∧
    ∃ r st', cspSolve (createCsp [fixTask1] [fixRes1] fixTs) .mrv false 10 neverExpires =
        .ok (r, st') ∧
      (r = none ∨ ∃ m, r = some m ∧ (m.map (·.1)).Perm ([fixTask1].map (·.id))) :=
  ⟨by decide, _, _, rfl,
    c1_solve_complete_or_none [fixTask1] [fixRes1] fixTs .mrv false 10 neverExpires _ _
      (by decide) rfl⟩

/-- Pair coverage transports along equal key lists. -/
theorem PairCovL_congr {v v' : List (String × CSPVariable)} {cs : List CSPConstraint}
    (hk : v'.map (·.1) = v.map (·.1)) (h : PairCovL v cs) : PairCovL v' cs :=
  fun a b ha hb hne => h a b (hk ▸ ha) (hk ▸ hb) hne

/-- In a pair-covered CSP, a successful value loop forces the entry
assignment to be empty (the arity bug fires on any second binding), so a
returned solution covers all variables and there can be at most one. -/
theorem tryValues_small
    (recur : SolverState → Except PyErr (Option (List (String × Value)) × SolverState))
    (hrecSmall : ∀ st m st'', WFl st.vars st.assignment →
      PairCovL st.vars st.constraints → recur st = .ok (some m, st'') →
      m.length = st.vars.length ∧
        (st.assignment ≠ [] → st.vars.length = st.assignment.length) ∧
        (st.assignment = [] → st.vars.length ≤ 1))
    (hrecNone : ∀ st st'', WFl st.vars st.assignment → recur st = .ok (none, st'') →
      st''.vars = st.vars ∧ st''.assignment = st.assignment ∧
        st''.constraints = st.constraints) :
    ∀ (vs : List Value) (st : SolverState) (n : String) (cv : CSPVariable)
      (m : List (String × Value)) (st' : SolverState),
      WFl st.vars st.assignment → PairCovL st.vars st.constraints →
      lookupA st.vars n = some cv → cv.assigned = none →
      tryValues recur n vs st = .ok (some m, st') →
      m.length = st.vars.length ∧
        (st.assignment ≠ [] → st.vars.length = st.assignment.length) ∧
        (st.assignment = [] → st.vars.length ≤ 1) := by
  intro vs
  induction vs with
  | nil =>
      intro st n cv m st' _ _ _ _ h
      rw [tryValues] at h
      simp at h
  | cons v vs ih =>
      intro st n cv m st' hWF hPC hl ha h
      rw [tryValues] at h
      split at h
      · cases h
      · rename_i b hb
        split at h
        · rename_i hbt
          have hb' : isConsistent st n v = .ok true := by rw [hb, hbt]
          have hnmem : n ∈ st.vars.map (·.1) := by
            refine (containsKey_iff).1 ?_
            rw [← lookupA_isSome, hl]
            rfl
          have hfresh : containsKey st.assignment n = false := hWF.not_in_asg hl ha
          have hasg : st.assignment = [] :=
            isConsistent_ok_true_empty hWF hPC hnmem hfresh hb'
          have hasg1 : (assignVar st n v).assignment = [(n, v)] := by
            show insertA st.assignment n v = [(n, v)]
            rw [insertA_of_fresh v hfresh, hasg]
            rfl
          split at h
          · cases h
          · rename_i sol st₂ hrec2
            cases h
            have hWF1 : WFl (assignVar st n v).vars (assignVar st n v).assignment :=
              hWF.assign hl ha v
            have hPC1 : PairCovL (assignVar st n v).vars (assignVar st n v).constraints :=
              PairCovL_congr (setAssigned_keys st.vars n (some v)) hPC
            have hres := hrecSmall _ _ _ hWF1 hPC1 hrec2
            have hlen1 : (assignVar st n v).vars.length = st.vars.length :=
              setAssigned_length st.vars n (some v)
            have hone : (assignVar st n v).vars.length = 1 := by
              have := hres.2.1 (by rw [hasg1]; exact List.cons_ne_nil _ _)
              rw [this, hasg1]
              rfl
            refine ⟨by rw [hres.1, hlen1], ?_, ?_⟩
            · intro hne
              exact absurd hasg hne
            · intro _
              rw [← hlen1, hone]
          · rename_i st₂ hrec2
            have hWF1 : WFl (assignVar st n v).vars (assignVar st n v).assignment :=
              hWF.assign hl ha v
            have hfr := hrecNone _ _ hWF1 hrec2
            have hv3 : (unassignVar st₂ n).vars = st.vars := by
              show setAssigned st₂.vars n none = st.vars
              rw [hfr.1]
              exact setAssigned_cancel v hl ha
            have ha3 : (unassignVar st₂ n).assignment = st.assignment := by
              show eraseA st₂.assignment n = st.assignment
              rw [hfr.2.1]
              show eraseA (insertA st.assignment n v) n = st.assignment
              rw [insertA_of_fresh v hfresh]
              exact eraseA_append_fresh v hfresh
            have hc3 : (unassignVar st₂ n).constraints = st.constraints := hfr.2.2
            have hWF3 : WFl (unassignVar st₂ n).vars (unassignVar st₂ n).assignment := by
              rw [hv3, ha3]
              exact hWF
            have hPC3 : PairCovL (unassignVar st₂ n).vars (unassignVar st₂ n).constraints := by
              rw [hc3]
              exact PairCovL_congr (by rw [hv3]) hPC
            have hl3 : lookupA (unassignVar st₂ n).vars n = some cv := by
              rw [hv3]
              exact hl
            have hres := ih (unassignVar st₂ n) n cv m st' hWF3 hPC3 hl3 ha h
            rw [hv3, ha3] at hres
            exact hres
        · exact ih st n cv m st' hWF hPC hl ha h

/-- A successful search out of a pair-covered, initially-empty state can
only exist on problems with at most one variable (any second binding
raises `TypeError` instead). -/
theorem backtrackSearch_small (clock : Nat → Bool) (hr : Heuristic) :
    ∀ (fuel : Nat) (st : SolverState) (m : List (String × Value)) (st' : SolverState),
      WFl st.vars st.assignment → PairCovL st.vars st.constraints →
      backtrackSearch clock hr fuel st = .ok (some m, st') →
      m.length = st.vars.length ∧
        (st.assignment ≠ [] → st.vars.length = st.assignment.length) ∧
        (st.assignment = [] → st.vars.length ≤ 1) := by
  intro fuel
  induction fuel with
  | zero => intro st m st' _ _ h; cases h
  | succ fuel ih =>
      intro st m st' hWF hPC h
      rw [backtrackSearch] at h
      split at h
      · simp at h
      · split at h
        · rename_i hcomplete
          have hm : m = st.assignment := by
            cases h
            rfl
          subst hm
          refine ⟨hcomplete.symm ▸ rfl, fun _ => hcomplete.symm, fun hasg => ?_⟩
          rw [← hcomplete, hasg]
          exact Nat.zero_le 1
        · split at h
          · simp at h
          · rename_i u us hmatch
            have hmem2 : selectVariable st hr (u :: us) ∈
                (st.vars.filter (fun p => p.2.assigned.isNone)).map (·.1) := by
              rw [hmatch]
              exact selectVariable_mem st hr u us
            obtain ⟨cv, hl, ha⟩ := unassigned_lookup hWF.1 hmem2
            exact tryValues_small (backtrackSearch clock hr fuel)
              (fun s mm s'' hw hp hb => ih s mm s'' hw hp hb)
              (backtrackSearch_none_frame clock hr fuel)
              _ (tick st) _ cv m st' hWF hPC hl ha h

/-- A list of length at most one has no two distinct members. -/
theorem eq_of_mem_length_le_one {m : List (String × Value)} (hlen : m.length ≤ 1)
    {e1 e2 : String × Value} (h1 : e1 ∈ m) (h2 : e2 ∈ m) : e1 = e2 := by
  cases m with
  | nil => cases h1
  | cons x xs =>
      cases xs with
      | nil =>
          rw [List.mem_singleton.1 h1, List.mem_singleton.1 h2]
      | cons y ys => simp at hlen

/-- **C2.**  Every non-`None` solution returned by `solve` satisfies the
no-overlap invariant: distinct entries sharing a resource and day have
disjoint `[start, start + duration)` hour intervals.  (In this code base
a returned solution necessarily has at most one entry — binding a second
task raises `TypeError` inside the consistency check — so the pairwise
property holds with room to spare.) -/
theorem c2_no_overlap_invariant (tasks : List Task) (resources : List Resource)
    (tsl : TimeSlots) (hr : Heuristic) (ac : Bool) (fuel : Nat) (clock : Nat → Bool)
    (m : List (String × Value)) (st' : SolverState)
    (hs : cspSolve (createCsp tasks resources tsl) hr ac fuel clock = .ok (some m, st')) :
    noOverlapSol tasks m := by
  have hWF0 : WFl (resetStats (createCsp tasks resources tsl)).vars
      (resetStats (createCsp tasks resources tsl)).assignment :=
    createCsp_WF tasks resources tsl
  have hPC0 : PairCovL (resetStats (createCsp tasks resources tsl)).vars
      (resetStats (createCsp tasks resources tsl)).constraints :=
    createCsp_PairCov tasks resources tsl
  have hasg0 : (resetStats (createCsp tasks resources tsl)).assignment = [] := rfl
  have hlen : m.length ≤ 1 := by
    rw [cspSolve] at hs
    split at hs
    · split at hs
      · cases hs
      · rename_i b st₁ hac
        have hspec := acLoop_spec fuel _ _ hac
        have hWF1 : WFl st₁.vars st₁.assignment := by
          rw [hspec.1]
          exact hWF0.domShrink hspec.2.2
        have hPC1 : PairCovL st₁.vars st₁.constraints := by
          rw [hspec.2.1]
          exact PairCovL_congr hspec.2.2.keys hPC0
        split at hs
        · have hres := backtrackSearch_small clock hr fuel st₁ m st' hWF1 hPC1 hs
          rw [hres.1]
          exact hres.2.2 (by rw [hspec.1]; exact hasg0)
        · simp at hs
    · have hres := backtrackSearch_small clock hr fuel _ m st' hWF0 hPC0 hs
      rw [hres.1]
      exact hres.2.2 hasg0
  intro e1 he1 e2 he2 hne _ _
  exact absurd (congrArg Prod.fst (eq_of_mem_length_le_one hlen he1 he2)) hne

/-- **C2, witness** on the concrete one-task problem. -/
theorem c2_witness :
    ∃ st', cspSolve (createCsp [fixTask1] [fixRes1] fixTs) .mrv false 10 neverExpires =
        .ok (some [("T1", ("R1", "monday", 9))], st') ∧
      noOverlapSol [fixTask1] [("T1", ("R1", "monday", 9))] :=
  ⟨_, rfl,
    c2_no_overlap_invariant [fixTask1] [fixRes1] fixTs .mrv false 10 neverExpires
      [("T1", ("R1", "monday", 9))] _ rfl⟩

/-- **C4 (code bug).**  The claim describes the conflict predicate the
consistency check is meant to compute (same resource AND same day AND
overlapping `[start, end)` intervals, independent of dependency lists).
In the code, `CSPConstraint.check` calls the 3-parameter `no_overlap`
function with only the 2 assigned values, so as soon as a second task is
bound the check raises `TypeError` instead of computing anything.  First
conjunct: the crash is reachable from the public entry point on a 2-task
problem.  Second conjunct: `is_consistent` raises even for two
assignments on the same resource and day with *disjoint* hour intervals
(`[9,11)` vs `[11,14)`), which under the claimed predicate would be a
non-conflict. -/
theorem c4_consistency_check_crashes :
    cspSolve (createCsp [fixTask1, fixTask2] [fixRes1] fixTs) .mrv false 10 neverExpires =
      .error .typeError ∧
    isConsistent
      (assignVar (resetStats (createCsp [fixTask1, fixTask2] [fixRes1] fixTs)) "T1"
        ("R1", "monday", 9)) "T2" ("R1", "monday", 11) = .error .typeError := by
  constructor
  · rfl
  · rfl
end CSPSched
